import Mathlib

/-!
Shallow embedding of the aircast-mavlink MAVLink core protocol engine
(`src/core/codec.ts`, `src/core/crc.ts`, `src/core/frame.ts`,
`src/core/parser.ts`, `src/core/stream-buffer.ts`,
`src/core/message-registry.ts`, `src/core/message-serializer.ts`)
together with theorems about its behaviour.

Modelling conventions:

* A JavaScript byte buffer (`Uint8Array` / `DataView`) is a `List Nat`
  whose live entries are `< 256`; indexed reads are `List.getD`, and
  sequential `DataView` writes become `setBytes`.
* A JavaScript number is modelled as an `Int`.  Fractional doubles are
  floating point and outside the embedding; decoded `float` / `double`
  payload values are carried symbolically as their IEEE-754 bit patterns
  (`JsVal.f32` / `JsVal.f64`) so the codec stays total and lossless on
  them.  No theorem below inspects floating-point arithmetic.
* MAVLink type strings (the `type` attribute of a field definition, for
  example `uint16_t` or `char[16]`) are `List Char`, so that the string
  scanning done by the TypeScript code (`includes`, `indexOf`,
  `substring`, `parseInt`) has a direct executable counterpart.
* JavaScript objects used as field-name-keyed records are association
  lists (`PayloadObject`) with first-match lookup and
  replace-or-append update, mirroring object key semantics.
* `parseInt` of the digits between `[` and `]` is modelled by
  `jsParseSize`, which returns the numeric value of an all-digit string
  and `0` for a string `parseInt` would reject (`NaN`); the `NaN` corner
  is never exercised by a theorem (well-formedness hypotheses keep
  bracket contents numeric wherever the result matters).
-/

/-- A decoded JavaScript value as it appears in a MAVLink payload object:
numbers (restricted to integers), BigInts, strings (as UTF-16 code unit
lists), arrays, booleans, and symbolic IEEE-754 bit patterns for values
read back from `float` / `double` fields. -/
inductive JsVal where
  | num (n : Int)
  | big (n : Int)
  | str (codes : List Nat)
  | arr (elems : List JsVal)
  | jsBool (b : Bool)
  | f32 (bits : Nat)
  | f64 (bits : Nat)

/-- The value `Number(v)` coerced from a `JsVal`, as used by the encoders.
Strings coerce through their decimal reading (`Number('12') = 12`); a
non-numeric string gives `NaN`, which every consumer in the codec
(`ToUint8` and friends) maps to `0`, so it is modelled as `0` here.  No
theorem relies on the string or array coercion cases. -/
def jsToNumber : JsVal → Int
  | .num n => n
  | .big n => n
  | .str _ => 0
  | .arr _ => 0
  | .jsBool b => if b then 1 else 0
  | .f32 _ => 0
  | .f64 _ => 0

/-- The result of `String(v)` on a `JsVal`, as a code-unit list.  Only the
string and integer cases are exercised by the codec on type-conforming
input. -/
def jsToStringCodes : JsVal → List Nat
  | .str s => s
  | .num n => (toString n).toList.map Char.toNat
  | .big n => (toString n).toList.map Char.toNat
  | _ => []

/-- Definition of a single field within a message
(`src/core/types.ts`, interface `FieldDefinition`). -/
structure FieldDefinition where
  name : String
  type : List Char
  arrayLength : Option Nat := none
  extension : Bool := false
deriving DecidableEq, Repr

/-- Definition of a complete MAVLink message
(`src/core/types.ts`, interface `MessageDefinition`). -/
structure MessageDefinition where
  id : Nat
  name : String
  fields : List FieldDefinition
deriving DecidableEq, Repr

/-- A decoded payload object: a JavaScript object keyed by field name. -/
abbrev PayloadObject := List (String × JsVal)

/-- Object property lookup (`obj[name]`): first matching key. -/
def objGet (obj : PayloadObject) (key : String) : Option JsVal :=
  match obj.find? (fun p => p.1 = key) with
  | some p => some p.2
  | none => none

/-- Object property assignment (`obj[name] = v`): replace the existing
binding in place, or append a new one. -/
def objSet (obj : PayloadObject) (key : String) (v : JsVal) : PayloadObject :=
  match obj with
  | [] => [(key, v)]
  | p :: rest => if p.1 = key then (key, v) :: rest else p :: objSet rest key v

/-! ## codec.ts: type sizes and wire order -/

/-- Size of a single MAVLink type in bytes (`codec.ts`, `getTypeSize`).
Any unrecognised type string falls through to `1`. -/
def getTypeSize (type : List Char) : Nat :=
  if type = "uint8_t".toList ∨ type = "int8_t".toList ∨ type = "char".toList then 1
  else if type = "uint16_t".toList ∨ type = "int16_t".toList then 2
  else if type = "uint32_t".toList ∨ type = "int32_t".toList ∨ type = "float".toList then 4
  else if type = "uint64_t".toList ∨ type = "int64_t".toList ∨ type = "double".toList then 8
  else 1

/-- Base type of a field type string (`codec.ts`, `getBaseType`): strip an
inline `[N]` suffix, when both brackets occur, at the first `[`. -/
def getBaseType (type : List Char) : List Char :=
  if '[' ∈ type ∧ ']' ∈ type then type.takeWhile (fun c => c ≠ '[') else type

/-- JavaScript `s.substring(a, b)` on a code-unit list: the smaller index
is the start (JavaScript swaps the arguments when `a > b`). -/
def jsSubstring (s : List Char) (a b : Nat) : List Char :=
  if a ≤ b then (s.take b).drop a else (s.take a).drop b

/-- The characters strictly between the first `[` and the first `]` of a
type string, exactly as `type.substring(type.indexOf('[') + 1,
type.indexOf(']'))` computes them. -/
def bracketContent (type : List Char) : List Char :=
  jsSubstring type (type.findIdx (fun c => c = '[') + 1) (type.findIdx (fun c => c = ']'))

/-- JavaScript `parseInt` restricted to all-digit strings; `none` models
`NaN`. -/
def parseIntJS (s : List Char) : Option Nat :=
  if s ≠ [] ∧ s.all Char.isDigit then
    some (s.foldl (fun a c => 10 * a + (c.toNat - '0'.toNat)) 0)
  else none

/-- The array length parsed from a bracket content, with `NaN` collapsed
to `0` (the codec never exercises the `NaN` corner under the
well-formedness hypotheses used below). -/
def jsParseSize (s : List Char) : Nat :=
  (parseIntJS s).getD 0

/-- Total size of a field in bytes (`codec.ts`, `getFieldSize`). -/
def getFieldSize (f : FieldDefinition) : Nat :=
  if f.arrayLength.getD 0 > 1 then
    getTypeSize (getBaseType f.type) * f.arrayLength.getD 0
  else if '[' ∈ f.type ∧ ']' ∈ f.type then
    getTypeSize (getBaseType f.type) * jsParseSize (bracketContent f.type)
  else getTypeSize f.type

/-- Element type size used for wire-order sorting (`codec.ts`,
`getFieldTypeSize`): the size of the base type, ignoring array length. -/
def getFieldTypeSize (f : FieldDefinition) : Nat :=
  getTypeSize (getBaseType f.type)

/-- The comparator passed to `coreFields.sort` in `sortFieldsByWireOrder`:
descending element size, ties broken by ascending original index. -/
def fieldCmp (a b : Nat × FieldDefinition) : Int :=
  let sizeA := getFieldTypeSize a.2
  let sizeB := getFieldTypeSize b.2
  if sizeB ≠ sizeA then (sizeB : Int) - (sizeA : Int) else (a.1 : Int) - (b.1 : Int)

/-- Insert an indexed field into an already comparator-sorted list,
keeping it after every element it does not strictly precede.  This is
the stable-sort semantics guaranteed for `Array.prototype.sort` with a
consistent comparator. -/
def insertByCmp (x : Nat × FieldDefinition) :
    List (Nat × FieldDefinition) → List (Nat × FieldDefinition)
  | [] => [x]
  | y :: ys => if fieldCmp x y < 0 then x :: y :: ys else y :: insertByCmp x ys

/-- Stable comparator sort of the indexed core fields. -/
def sortByCmp : List (Nat × FieldDefinition) → List (Nat × FieldDefinition)
  | [] => []
  | x :: xs => insertByCmp x (sortByCmp xs)

/-- Sort fields to MAVLink v2 wire order (`codec.ts`,
`sortFieldsByWireOrder`): core fields stably sorted by descending
element size, then extension fields in declaration order. -/
def sortFieldsByWireOrder (fields : List FieldDefinition) : List FieldDefinition :=
  let indexed := fields.enum
  let coreFields := indexed.filter (fun p => !p.2.extension)
  let extensionFields := (indexed.filter (fun p => p.2.extension)).map Prod.snd
  (sortByCmp coreFields).map Prod.snd ++ extensionFields

/-! ## codec.ts: defaults -/

/-- Default value for a MAVLink type (`codec.ts`, `getDefaultValue`):
`0n` for the 64-bit integer types, `0` otherwise. -/
def getDefaultValue (type : List Char) : JsVal :=
  if type = "uint64_t".toList ∨ type = "int64_t".toList then .big 0 else .num 0

/-- Default value for a field (`codec.ts`, `getFieldDefaultValue`):
`[]` for any field with `arrayLength > 1`, otherwise by base type —
`0n` for 64-bit integers, `''` for bracketed char types, `'\0'` for a
bare `char`, `0` for everything else. -/
def getFieldDefaultValue (f : FieldDefinition) : JsVal :=
  if f.arrayLength.getD 0 > 1 then .arr []
  else
    let baseType := getBaseType f.type
    if baseType = "uint64_t".toList ∨ baseType = "int64_t".toList then .big 0
    else if baseType = "char".toList then
      if '[' ∈ f.type then .str [] else .str [0]
    else .num 0

/-! ## codec.ts: decoding -/

/-- Little-endian value of a byte list. -/
def leBytesToNat (bytes : List Nat) : Nat :=
  bytes.foldr (fun b acc => b + 256 * acc) 0

/-- A bounds-checked little-endian `DataView` read of `size` bytes;
`none` models the `RangeError` thrown past the end of the view. -/
def readLE (buf : List Nat) (off size : Nat) : Option Nat :=
  if off + size ≤ buf.length then some (leBytesToNat ((buf.drop off).take size)) else none

/-- Two's-complement reading of an unsigned `bits`-bit value. -/
def asSigned (bits v : Nat) : Int :=
  if v < 2 ^ (bits - 1) then (v : Int) else (v : Int) - 2 ^ bits

/-- Scalar (bracket-free) cases of `decodeSingleValue` (`codec.ts`):
the eleven primitive getters plus the single-byte fallthrough for an
unrecognised type.  A `none` read models the `RangeError` caught by the
surrounding `try`, which returns `{ value: 0, bytesRead: 1 }`. -/
def decodeScalarValue (buf : List Nat) (off : Nat) (type : List Char) : JsVal × Nat :=
  if type = "uint8_t".toList then
    match readLE buf off 1 with
    | some v => (.num v, 1)
    | none => (.num 0, 1)
  else if type = "int8_t".toList then
    match readLE buf off 1 with
    | some v => (.num (asSigned 8 v), 1)
    | none => (.num 0, 1)
  else if type = "uint16_t".toList then
    match readLE buf off 2 with
    | some v => (.num v, 2)
    | none => (.num 0, 1)
  else if type = "int16_t".toList then
    match readLE buf off 2 with
    | some v => (.num (asSigned 16 v), 2)
    | none => (.num 0, 1)
  else if type = "uint32_t".toList then
    match readLE buf off 4 with
    | some v => (.num v, 4)
    | none => (.num 0, 1)
  else if type = "int32_t".toList then
    match readLE buf off 4 with
    | some v => (.num (asSigned 32 v), 4)
    | none => (.num 0, 1)
  else if type = "uint64_t".toList then
    match readLE buf off 8 with
    | some v => (.big v, 8)
    | none => (.num 0, 1)
  else if type = "int64_t".toList then
    match readLE buf off 8 with
    | some v => (.big (asSigned 64 v), 8)
    | none => (.num 0, 1)
  else if type = "float".toList then
    match readLE buf off 4 with
    | some v => (.f32 v, 4)
    | none => (.num 0, 1)
  else if type = "double".toList then
    match readLE buf off 8 with
    | some v => (.f64 v, 8)
    | none => (.num 0, 1)
  else if type = "char".toList then
    match readLE buf off 1 with
    | some v => (if v = 0 then .str [0] else .str [v], 1)
    | none => (.num 0, 1)
  else
    match readLE buf off 1 with
    | some v => (.num v, 1)
    | none => (.num 0, 1)

/-- The char-array scan shared by the inline `char[N]` branch of
`decodeSingleValue` and the char branch of `decodeField`: read up to `n`
in-bounds bytes starting at `off`, stopping at the first NUL. -/
def charArrayRead (buf : List Nat) (off n : Nat) : List Nat :=
  ((buf.drop off).take n).takeWhile (fun b => b ≠ 0)

/-- The element loop of the generic inline-array branch of
`decodeSingleValue` and of the non-char array branch of `decodeField`.
The loop guard re-checks the remaining buffer before every element and
accumulates `bytesRead`.  The per-element recursive call in the source
is `decodeSingleValue(view, offset + totalBytes, baseType)`; since a
base type is cut at the first `[` it is always bracket-free, so that
call is exactly `decodeScalarValue`.  Every decoded element has a
JavaScript primitive type, so the source's `typeof` filter before
`values.push` always passes. -/
def decodeArrayLoop (buf : List Nat) (baseType : List Char) (off : Nat) :
    Nat → Nat → List JsVal × Nat
  | 0, totalBytes => ([], totalBytes)
  | n + 1, totalBytes =>
    if off + totalBytes ≥ buf.length then ([], totalBytes)
    else
      let p := decodeScalarValue buf (off + totalBytes) baseType
      let rest := decodeArrayLoop buf baseType off n (totalBytes + p.2)
      (p.1 :: rest.1, rest.2)

/-- Decode a single value (`codec.ts`, `decodeSingleValue`): primitive
scalars, inline `char[N]` strings (whose `bytesRead` is the declared
length even when the buffer is shorter), generic inline arrays, and the
single-byte fallthrough. -/
def decodeSingleValue (buf : List Nat) (off : Nat) (type : List Char) : JsVal × Nat :=
  if type.take 5 = "char[".toList ∧ type.getLast? = some ']' then
    let n := jsParseSize ((type.drop 5).dropLast)
    (.str (charArrayRead buf off n), n)
  else if '[' ∈ type ∧ ']' ∈ type then
    let baseType := getBaseType type
    let n := jsParseSize (bracketContent type)
    let p := decodeArrayLoop buf baseType off n 0
    (.arr p.1, p.2)
  else decodeScalarValue buf off type

/-- JavaScript `arrayLength || 1`: `0` is falsy. -/
def jsOr1 : Option Nat → Nat
  | some 0 => 1
  | some n => n
  | none => 1

/-- Decode a field (`codec.ts`, `decodeField`): char arrays decode to a
string with `bytesRead` equal to the declared array length; other
arrays decode elementwise with the re-checked loop guard; everything
else goes through `decodeSingleValue` on the full type string. -/
def decodeField (buf : List Nat) (off : Nat) (f : FieldDefinition) : JsVal × Nat :=
  let isArray := f.arrayLength.isSome
  let arrayLength := jsOr1 f.arrayLength
  if isArray ∧ arrayLength > 1 then
    let baseType := getBaseType f.type
    if baseType = "char".toList then
      (.str (charArrayRead buf off arrayLength), arrayLength)
    else
      let p := decodeArrayLoop buf baseType off arrayLength 0
      (.arr p.1, p.2)
  else decodeSingleValue buf off f.type

/-- The field loop of `decodePayload`: default when the running offset
has reached the end of the payload, decode and advance otherwise. -/
def decodePayloadLoop (payload : List Nat) :
    List FieldDefinition → PayloadObject → Nat → PayloadObject
  | [], result, _ => result
  | f :: rest, result, off =>
    if off ≥ payload.length then
      decodePayloadLoop payload rest (objSet result f.name (getFieldDefaultValue f)) off
    else
      let p := decodeField payload off f
      decodePayloadLoop payload rest (objSet result f.name p.1) (off + p.2)

/-- Decode a payload buffer into an object (`codec.ts`, `decodePayload`). -/
def decodePayload (payload : List Nat) (fields : List FieldDefinition) : PayloadObject :=
  decodePayloadLoop payload (sortFieldsByWireOrder fields) [] 0

/-! ## codec.ts: encoding -/

/-- Reduce an integer to its unsigned `bits`-bit wire representation:
the shared effect of `ToUint8/ToInt8/.../ToBigUint64` before storing. -/
def toWire (bits : Nat) (v : Int) : Nat :=
  (v % ((2 : Int) ^ bits)).toNat

/-- Little-endian byte expansion of a value already reduced mod `2^(8n)`. -/
def natToLE (size v : Nat) : List Nat :=
  (List.range size).map (fun i => v / 256 ^ i % 256)

/-- IEEE-754 bit pattern of an integer value, with round-to-nearest-even
above the mantissa width and saturation to infinity above the exponent
range.  Used only to keep the `float` / `double` encoders total; no
theorem depends on it. -/
def floatBitsOfInt (expBits mantBits : Nat) (v : Int) : Nat :=
  let bias := 2 ^ (expBits - 1) - 1
  let signBit := if v < 0 then 2 ^ (expBits + mantBits) else 0
  let m := v.natAbs
  if m = 0 then 0
  else
    let e := Nat.log2 m
    if e ≤ mantBits then
      signBit + (e + bias) * 2 ^ mantBits + (m * 2 ^ (mantBits - e) - 2 ^ mantBits)
    else
      let shift := e - mantBits
      let q := m / 2 ^ shift
      let r := m % 2 ^ shift
      let half := 2 ^ (shift - 1)
      let q' := if r > half ∨ (r = half ∧ q % 2 = 1) then q + 1 else q
      let em := if q' = 2 ^ (mantBits + 1) then (e + 1, 2 ^ mantBits) else (e, q')
      if em.1 + bias ≥ 2 ^ expBits - 1 then signBit + (2 ^ expBits - 1) * 2 ^ mantBits
      else signBit + (em.1 + bias) * 2 ^ mantBits + (em.2 - 2 ^ mantBits)

/-- Bits stored by `setFloat32` for an integer-valued number. -/
def f32BitsOfInt (v : Int) : Nat := floatBitsOfInt 8 23 v

/-- Bits stored by `setFloat64` for an integer-valued number. -/
def f64BitsOfInt (v : Int) : Nat := floatBitsOfInt 11 52 v

/-- Encode a single value (`codec.ts`, `encodeSingleValue`), returning
the bytes the source writes contiguously at its `offset` (their count
is the source's return value).  `value = none` models a JavaScript
`undefined`, replaced by `getDefaultValue(type)` via `??`. -/
def encodeSingleValue (type : List Char) (value : Option JsVal) : List Nat :=
  let actualValue := value.getD (getDefaultValue type)
  if type = "uint8_t".toList then [toWire 8 (jsToNumber actualValue)]
  else if type = "int8_t".toList then [toWire 8 (jsToNumber actualValue)]
  else if type = "uint16_t".toList then natToLE 2 (toWire 16 (jsToNumber actualValue))
  else if type = "int16_t".toList then natToLE 2 (toWire 16 (jsToNumber actualValue))
  else if type = "uint32_t".toList then natToLE 4 (toWire 32 (jsToNumber actualValue))
  else if type = "int32_t".toList then natToLE 4 (toWire 32 (jsToNumber actualValue))
  else if type = "uint64_t".toList then
    natToLE 8 (toWire 64 (match actualValue with | .big n => n | v => jsToNumber v))
  else if type = "int64_t".toList then
    natToLE 8 (toWire 64 (match actualValue with | .big n => n | v => jsToNumber v))
  else if type = "float".toList then
    natToLE 4 (match actualValue with | .f32 b => b % 2 ^ 32 | v => f32BitsOfInt (jsToNumber v))
  else if type = "double".toList then
    natToLE 8 (match actualValue with | .f64 b => b % 2 ^ 64 | v => f64BitsOfInt (jsToNumber v))
  else if type = "char".toList then
    [toWire 8 (match actualValue with | .str s => (s.headD 0 : Int) | v => jsToNumber v)]
  else if type.take 5 = "char[".toList ∧ type.getLast? = some ']' then
    let n := jsParseSize ((type.drop 5).dropLast)
    let s := jsToStringCodes actualValue
    (List.range n).map (fun i => s.getD i 0 % 256)
  else [toWire 8 (jsToNumber actualValue)]

/-- JavaScript `Array.isArray(value) ? value : [value]`, keeping a
possible `undefined` inside the singleton. -/
def jsArrayOf : Option JsVal → List (Option JsVal)
  | some (.arr vs) => vs.map some
  | v => [v]

/-- The element loop of the non-char array branch of `encodeField`:
each of the `n` slots encodes the corresponding provided item, or
`getDefaultValue(baseType)` past the end of the provided array. -/
def encodeArrayItems (baseType : List Char) (n : Nat) (items : List (Option JsVal)) : List Nat :=
  ((List.range n).map
    (fun i => encodeSingleValue baseType (items.getD i (some (getDefaultValue baseType))))).flatten

/-- Encode a field (`codec.ts`, `encodeField`): char arrays from a
string are NUL-padded / truncated to the declared length; other arrays
encode elementwise; everything else goes through `encodeSingleValue`. -/
def encodeField (f : FieldDefinition) (value : Option JsVal) : List Nat :=
  let isArray := f.arrayLength.isSome
  let arrayLength := jsOr1 f.arrayLength
  if isArray ∧ arrayLength > 1 then
    let baseType := getBaseType f.type
    match value, decide (baseType = "char".toList) with
    | some (.str s), true => (List.range arrayLength).map (fun i => s.getD i 0 % 256)
    | v, _ => encodeArrayItems baseType arrayLength (jsArrayOf v)
  else encodeSingleValue f.type value

/-- Overwrite `bs.length` bytes of `buf` starting at `off` (the effect
of the contiguous `DataView` writes of one field).  Writes never move
past the end of the buffer in any reachable use; the formula keeps the
buffer length unchanged in all cases. -/
def setBytes (buf : List Nat) (off : Nat) (bs : List Nat) : List Nat :=
  buf.take off ++ bs.take (buf.length - off) ++ buf.drop (off + bs.length)

/-- The field-writing loop of `encodePayload`: write each sorted field
at the running offset and advance by the bytes written. -/
def encodePayloadWrite (message : PayloadObject) :
    List FieldDefinition → List Nat → Nat → List Nat
  | [], buf, _ => buf
  | f :: rest, buf, off =>
    let bs := encodeField f (objGet message f.name)
    encodePayloadWrite message rest (setBytes buf off bs) (off + bs.length)

/-- The core-size / extension-start scan of `encodePayload`, folding
over the sorted fields: core bytes accumulate, and the first extension
field freezes `extensionStartOffset` at the core size accumulated so
far. -/
def extScan : List FieldDefinition → Nat → Nat → Bool → Nat × Nat × Bool
  | [], core, extStart, has => (core, extStart, has)
  | f :: rest, core, extStart, has =>
    if f.extension then extScan rest core (if has then extStart else core) true
    else extScan rest (core + getFieldSize f) extStart has

/-- Encode a payload object to bytes with MAVLink v2 payload trimming
(`codec.ts`, `encodePayload`).  The backward scan for the last non-zero
byte is rendered by counting the trailing zero run; it runs under the
branch condition that a non-zero byte exists at or after
`extensionStartOffset`, which makes the two computations agree. -/
def encodePayload (message : PayloadObject) (fields : List FieldDefinition) : List Nat :=
  let sortedFields := sortFieldsByWireOrder fields
  let totalSize := (sortedFields.map getFieldSize).sum
  let fullPayload := encodePayloadWrite message sortedFields (List.replicate totalSize 0) 0
  let scan := extScan sortedFields 0 0 false
  let corePayloadSize := scan.1
  let extensionStartOffset := scan.2.1
  let hasExtensions := scan.2.2
  if !hasExtensions then fullPayload
  else
    let trimmedA :=
      if extensionStartOffset < fullPayload.length then
        if (fullPayload.drop extensionStartOffset).all (fun b => b = 0) then corePayloadSize
        else fullPayload.length - (fullPayload.reverse.takeWhile (fun b => b = 0)).length
      else fullPayload.length
    let trimmedLength := if trimmedA < corePayloadSize then corePayloadSize else trimmedA
    if trimmedLength < fullPayload.length then fullPayload.take trimmedLength else fullPayload

/-! ## crc.ts: X.25 / MCRF4XX checksum -/

/-- Initial CRC value for the X.25 algorithm (`crc.ts`, `X25_INIT_CRC`). -/
def X25_INIT_CRC : Nat := 0xffff

/-- One MCRF4XX accumulation step, processing a single byte. -/
def crcStep (crc b : Nat) : Nat :=
  let tmp0 := (b ^^^ (crc &&& 0xff)) &&& 0xff
  let tmp := (tmp0 ^^^ (tmp0 <<< 4)) &&& 0xff
  ((crc >>> 8) ^^^ (tmp <<< 8) ^^^ (tmp <<< 3) ^^^ (tmp >>> 4)) &&& 0xffff

/-- CRC with the CRC_EXTRA seed appended as a final virtual byte
(`crc.ts`, `MAVLinkCRC.calculate`). -/
def MAVLinkCRC.calculate (data : List Nat) (crcExtra : Nat) : Nat :=
  crcStep (data.foldl crcStep X25_INIT_CRC) crcExtra

/-- Checksum validation (`crc.ts`, `MAVLinkCRC.validate`). -/
def MAVLinkCRC.validate (data : List Nat) (crcExtra receivedChecksum : Nat) : Bool :=
  MAVLinkCRC.calculate data crcExtra = receivedChecksum

/-- Lookup in a JavaScript `Record<number, number>`; first-match lookup
coincides with object semantics because numeric keys are unique. -/
def tableGet (table : List (Nat × Nat)) (key : Nat) : Option Nat :=
  (table.find? (fun p => p.1 = key)).map Prod.snd

/-- Validation through the CRC_EXTRA table (`crc.ts`,
`MAVLinkCRC.validateWithTable`): `false` when the id is absent. -/
def MAVLinkCRC.validateWithTable (data : List Nat) (messageId receivedChecksum : Nat)
    (crcExtraTable : List (Nat × Nat)) : Bool :=
  match tableGet crcExtraTable messageId with
  | none => false
  | some crcExtra => MAVLinkCRC.validate data crcExtra receivedChecksum

/-! ## frame.ts: framing -/

/-- A raw MAVLink frame before payload decoding (`types.ts`,
interface `MAVLinkFrame`). -/
structure MAVLinkFrame where
  magic : Nat
  length : Nat
  incompatible_flags : Option Nat := none
  compatible_flags : Option Nat := none
  sequence : Nat
  system_id : Nat
  component_id : Nat
  message_id : Nat
  payload : List Nat
  checksum : Nat
  signature : Option (List Nat) := none
  crc_ok : Option Bool := none
  protocol_version : Option Nat := none
deriving Repr

/-- Result of attempting to parse a frame (`frame.ts`,
interface `FrameParseResult`). -/
structure FrameParseResult where
  frame : Option MAVLinkFrame
  bytesConsumed : Nat
deriving Repr

/-- Parse a single MAVLink frame from a byte buffer (`frame.ts`,
`parseFrame`).  Notes on the rendering:
* the magic scan is `findIdx`, which returns `data.length` when no
  magic byte occurs, exactly like the source loop;
* the source reads the two extra v2 message-id bytes under the guard
  `data.length - frameOffset >= 2`, kept here verbatim;
* the signature condition `frame.incompatible_flags &&
  (frame.incompatible_flags & 0x01)` reduces to the bit test, since a
  zero flags byte also has a zero low bit;
* the CRC input is `data.slice(offset + 1, frameOffset - 2)` with
  `frameOffset` already advanced past the checksum and, when one was
  taken, past the signature. -/
def parseFrame (data : List Nat) (crcExtraTable : List (Nat × Nat)) : FrameParseResult :=
  if data.length < 8 then { frame := none, bytesConsumed := 0 }
  else
    let offset := data.findIdx (fun b => b = 0xfe ∨ b = 0xfd)
    if offset = data.length then { frame := none, bytesConsumed := data.length }
    else
      let magic := data.getD offset 0
      let isV2 := magic = 0xfd
      if data.length - offset < (if isV2 then 12 else 8) then
        { frame := none, bytesConsumed := offset }
      else
        let len := data.getD (offset + 1) 0
        let idHdr :=
          if isV2 then
            let id0 := data.getD (offset + 7) 0
            if data.length - (offset + 8) ≥ 2 then
              (id0 ||| (data.getD (offset + 8) 0 <<< 8) ||| (data.getD (offset + 9) 0 <<< 16), 10)
            else (id0, 8)
          else (data.getD (offset + 5) 0, 6)
        let messageId := idHdr.1
        let headerLen := idHdr.2
        let seqIdx := if isV2 then offset + 4 else offset + 2
        let totalLength := headerLen + len + 2
        if data.length - offset < totalLength then { frame := none, bytesConsumed := offset }
        else
          let payload := (data.drop (offset + headerLen)).take len
          let checksum := data.getD (offset + headerLen + len) 0 |||
            (data.getD (offset + headerLen + len + 1) 0 <<< 8)
          let afterChecksum := offset + headerLen + len + 2
          let flagSet := isV2 ∧ (data.getD (offset + 2) 0) &&& 1 ≠ 0
          let sigTaken := flagSet ∧ data.length - afterChecksum ≥ 13
          let frameEnd := if sigTaken then afterChecksum + 13 else afterChecksum
          let crcData := (data.take (frameEnd - 2)).drop (offset + 1)
          let crcOk := MAVLinkCRC.validateWithTable crcData messageId checksum crcExtraTable
          { frame := some {
              magic := magic
              length := len
              incompatible_flags := if isV2 then some (data.getD (offset + 2) 0) else none
              compatible_flags := if isV2 then some (data.getD (offset + 3) 0) else none
              sequence := data.getD seqIdx 0
              system_id := data.getD (seqIdx + 1) 0
              component_id := data.getD (seqIdx + 2) 0
              message_id := messageId
              payload := payload
              checksum := checksum
              signature := if sigTaken then some ((data.drop afterChecksum).take 13) else none
              crc_ok := some crcOk
              protocol_version := some (if isV2 then 2 else 1) }
            bytesConsumed := frameEnd - offset }

/-- Create a MAVLink v1 or v2 frame (`frame.ts`, `createFrame`).  The
checksum covers every byte after the magic through the last payload
byte, seeded with `crcExtra`. -/
def createFrame (messageId : Nat) (payload : List Nat) (systemId componentId sequence : Nat)
    (crcExtra : Nat) (protocolVersion : Option Nat) : List Nat :=
  let needsV2 := messageId > 255
  let version := protocolVersion.getD (if needsV2 then 2 else 1)
  let isV2 := version = 2
  let magic := if isV2 then 0xfd else 0xfe
  let header : List Nat :=
    if isV2 then
      [magic, payload.length % 256, 0, 0, sequence % 256, systemId % 256, componentId % 256,
        messageId % 256, (messageId >>> 8) % 256, (messageId >>> 16) % 256]
    else
      [magic, payload.length % 256, sequence % 256, systemId % 256, componentId % 256,
        messageId % 256]
  let messageData := header.tail ++ payload
  let checksum := MAVLinkCRC.calculate messageData crcExtra
  header ++ payload ++ [checksum % 256, (checksum >>> 8) % 256]

/-! ## message-registry.ts, message-serializer.ts, parser.ts -/

/-- The dialect catalog: registered message definitions plus the
CRC_EXTRA table (`message-registry.ts`, `MessageRegistry`).  First-match
lookup coincides with the source's `Map` lookups whenever names and ids
are distinct, which is the catalog invariant assumed by every theorem
that looks anything up. -/
structure DialectCatalog where
  definitions : List MessageDefinition
  crcExtraTable : List (Nat × Nat)

/-- Lookup by name (`getMessageDefinitionByName`). -/
def getDefByName (cat : DialectCatalog) (name : String) : Option MessageDefinition :=
  cat.definitions.find? (fun d => d.name = name)

/-- Lookup by id (`getMessageDefinition`). -/
def getDefById (cat : DialectCatalog) (id : Nat) : Option MessageDefinition :=
  cat.definitions.find? (fun d => d.id = id)

/-- CRC_EXTRA lookup (`getCrcExtra`). -/
def getCrcExtra (cat : DialectCatalog) (id : Nat) : Option Nat :=
  tableGet cat.crcExtraTable id

/-- The `message.payload` slot of a serialize input: an object, or a
truthy non-object value (`typeof !== 'object'`). -/
inductive PayloadSlot where
  | obj (fields : PayloadObject)
  | nonObj

/-- Input to `serializeMessage` / `completeMessage`.  Optional numeric
slots model `typeof x === 'number' ? x : default`; a `none` payload
models an absent or falsy `message.payload`. -/
structure MessageInput where
  message_name : String
  system_id : Option Nat := none
  component_id : Option Nat := none
  sequence : Option Nat := none
  protocol_version : Option Nat := none
  payload : Option PayloadSlot := none

/-- The three serialize failure modes (`parser.ts` /
`message-serializer.ts` throw sites). -/
inductive SerializeError where
  | unknownMessage
  | malformedMessage
  | missingCrcExtra
deriving DecidableEq, Repr

/-- Fill missing fields with defaults (`completeMessageWithDefaults`),
iterating the given field list in order. -/
def completeMessageWithDefaults (message : PayloadObject)
    (fields : List FieldDefinition) : PayloadObject :=
  fields.foldl
    (fun acc f =>
      if (objGet acc f.name).isNone then objSet acc f.name (getFieldDefaultValue f) else acc)
    message

/-- Serialize a message to MAVLink bytes (`message-serializer.ts`,
`MessageSerializer.serializeMessage`; identical in `parser.ts`). -/
def serializeMessage (cat : DialectCatalog) (message : MessageInput) :
    Except SerializeError (List Nat) :=
  match getDefByName cat message.message_name with
  | none => .error .unknownMessage
  | some messageDef =>
    match message.payload with
    | some (.obj messageFields) =>
      let completeMessage := completeMessageWithDefaults messageFields messageDef.fields
      let payload := encodePayload completeMessage messageDef.fields
      let systemId := message.system_id.getD 1
      let componentId := message.component_id.getD 1
      let sequence := message.sequence.getD 0
      match getCrcExtra cat messageDef.id with
      | none => .error .missingCrcExtra
      | some crcExtra =>
        let needsV2 := messageDef.id > 255
        let protocolVersion := message.protocol_version.getD (if needsV2 then 2 else 1)
        .ok (createFrame messageDef.id payload systemId componentId sequence crcExtra
          (some protocolVersion))
    | _ => .error .malformedMessage

/-- Complete a message with defaults for all undefined payload fields
(`message-serializer.ts`, `MessageSerializer.completeMessage`): the
fields are traversed in wire order. -/
def completeMessage (cat : DialectCatalog) (message : MessageInput) :
    Except SerializeError MessageInput :=
  match getDefByName cat message.message_name with
  | none => .error .unknownMessage
  | some messageDef =>
    match message.payload with
    | some (.obj messageFields) =>
      let sortedFields := sortFieldsByWireOrder messageDef.fields
      let completedFields :=
        sortedFields.foldl
          (fun acc f =>
            if (objGet acc f.name).isNone then objSet acc f.name (getFieldDefaultValue f) else acc)
          messageFields
      .ok { message with payload := some (.obj completedFields) }
    | _ => .error .malformedMessage

/-- A fully parsed MAVLink message (`types.ts`,
`ParsedMAVLinkMessage`).  The `timestamp` attribute (`Date.now()`) is
real time and outside the embedding, so it is omitted here. -/
structure ParsedMAVLinkMessage where
  system_id : Nat
  component_id : Nat
  message_id : Nat
  message_name : String
  sequence : Nat
  payload : PayloadObject
  protocol_version : Nat
  checksum : Nat
  crc_ok : Bool
  signature : Option (List Nat)
  dialect : String

/-- Decode a MAVLink frame into a parsed message (`parser.ts`,
`DialectParser.decode`).  `frame.protocol_version || ...` is rendered
with `getD` since the stored version is never the falsy `0`;
`frame.crc_ok ?? true` is `getD true`. -/
def decodeFrame (cat : DialectCatalog) (dialectName : String)
    (frame : MAVLinkFrame) : ParsedMAVLinkMessage :=
  let protocolVersion := frame.protocol_version.getD (if frame.magic = 0xfd then 2 else 1)
  match getDefById cat frame.message_id with
  | none =>
    { system_id := frame.system_id
      component_id := frame.component_id
      message_id := frame.message_id
      message_name := "UNKNOWN_" ++ toString frame.message_id
      sequence := frame.sequence
      payload := [("raw_payload", .arr (frame.payload.map (fun b => .num b)))]
      protocol_version := protocolVersion
      checksum := frame.checksum
      crc_ok := frame.crc_ok.getD true
      signature := frame.signature
      dialect := dialectName }
  | some messageDef =>
    { system_id := frame.system_id
      component_id := frame.component_id
      message_id := frame.message_id
      message_name := messageDef.name
      sequence := frame.sequence
      payload := decodePayload frame.payload messageDef.fields
      protocol_version := protocolVersion
      checksum := frame.checksum
      crc_ok := frame.crc_ok.getD true
      signature := frame.signature
      dialect := dialectName }

/-! ## stream-buffer.ts -/

/-- Default initial capacity of the stream buffer. -/
def DEFAULT_BUFFER_SIZE : Nat := 4096

/-- Ring-without-wrap byte reservoir (`stream-buffer.ts`,
`StreamBuffer`): a backing array with live range
`[bufferStart, bufferEnd)`. -/
structure StreamBuffer where
  buffer : List Nat
  bufferStart : Nat
  bufferEnd : Nat

/-- A fresh stream buffer of the default capacity. -/
def StreamBuffer.init : StreamBuffer :=
  { buffer := List.replicate DEFAULT_BUFFER_SIZE 0, bufferStart := 0, bufferEnd := 0 }

/-- Live contents (`getContents`): `buffer.subarray(start, end)`. -/
def StreamBuffer.getContents (sb : StreamBuffer) : List Nat :=
  (sb.buffer.take sb.bufferEnd).drop sb.bufferStart

/-- Append data (`append`): grow to `max(2·capacity, required)` and move
live bytes to index 0, compact in place when the tail would overflow,
then write at `bufferEnd`. -/
def StreamBuffer.append (sb : StreamBuffer) (data : List Nat) : StreamBuffer :=
  let currentLength := sb.bufferEnd - sb.bufferStart
  let requiredSize := currentLength + data.length
  let sb1 :=
    if requiredSize > sb.buffer.length then
      let newSize := max (sb.buffer.length * 2) requiredSize
      { buffer := setBytes (List.replicate newSize 0) 0 sb.getContents,
        bufferStart := 0, bufferEnd := currentLength }
    else if sb.bufferEnd + data.length > sb.buffer.length then
      { buffer := setBytes sb.buffer 0 sb.getContents,
        bufferStart := 0, bufferEnd := currentLength }
    else sb
  { sb1 with
      buffer := setBytes sb1.buffer sb1.bufferEnd data
      bufferEnd := sb1.bufferEnd + data.length }

/-- Consume bytes from the front (`consume`); when the live range
empties, both indices reset to 0. -/
def StreamBuffer.consume (sb : StreamBuffer) (bytes : Nat) : StreamBuffer :=
  let s := sb.bufferStart + bytes
  if s = sb.bufferEnd then { sb with bufferStart := 0, bufferEnd := 0 }
  else { sb with bufferStart := s }

/-- The mutable state of a `DialectParser` (`parser.ts`): the registry
contents and the stream buffer. -/
structure ParserState where
  catalog : DialectCatalog
  dialectName : String
  streamBuffer : StreamBuffer

/-- The frame-extraction loop of `parseBytes`.  Fuel bounds the
iteration count; since every continuing iteration advances `offset` by
at least one byte, fuel `bufferData.length + 1` can never run out, and
the fuel-exhausted branch is unreachable. -/
def parseBytesLoop (cat : DialectCatalog) (dialectName : String) (bufferData : List Nat) :
    Nat → Nat → List ParsedMAVLinkMessage × Nat
  | 0, offset => ([], offset)
  | fuel + 1, offset =>
    if offset < bufferData.length then
      let r := parseFrame (bufferData.drop offset) cat.crcExtraTable
      match r.frame with
      | some f =>
        let rest := parseBytesLoop cat dialectName bufferData fuel (offset + r.bytesConsumed)
        (decodeFrame cat dialectName f :: rest.1, rest.2)
      | none =>
        if r.bytesConsumed > 0 then
          parseBytesLoop cat dialectName bufferData fuel (offset + r.bytesConsumed)
        else ([], offset)
    else ([], offset)

/-- Parse incoming bytes and return any complete messages (`parser.ts`,
`DialectParser.parseBytes`): append to the stream buffer, repeatedly
run the framer over the contents, then consume the processed bytes. -/
def parseBytes (st : ParserState) (data : List Nat) :
    List ParsedMAVLinkMessage × ParserState :=
  if data.length = 0 then ([], st)
  else
    let sb := st.streamBuffer.append data
    let bufferData := sb.getContents
    let r := parseBytesLoop st.catalog st.dialectName bufferData (bufferData.length + 1) 0
    (r.1, { st with streamBuffer := sb.consume r.2 })

/-! ## Specification-side definitions used by the theorems -/

/-- Sum of the full declared sizes of all fields. -/
def fullPayloadSizeOf (fields : List FieldDefinition) : Nat :=
  (fields.map getFieldSize).sum

/-- Sum of the full declared sizes of all non-extension fields (the core
payload size of the spec). -/
def corePayloadSizeOf (fields : List FieldDefinition) : Nat :=
  ((fields.filter (fun f => !f.extension)).map getFieldSize).sum

/-- The nine integer / char primitive type names.  The two floating
point names are excluded from the round-trip development: IEEE
arithmetic is outside the embedding. -/
def intCharTypes : List (List Char) :=
  ["uint8_t".toList, "int8_t".toList, "uint16_t".toList, "int16_t".toList,
    "uint32_t".toList, "int32_t".toList, "uint64_t".toList, "int64_t".toList,
    "char".toList]

/-- A value conforming to a scalar of the given primitive type: the
right dynamic type in the right range (a `char` is a one-unit string
with a byte-sized code). -/
def scalarConforms (t : List Char) (v : JsVal) : Prop :=
  if t = "uint8_t".toList then
    match v with | .num n => 0 ≤ n ∧ n < 2 ^ 8 | _ => False
  else if t = "int8_t".toList then
    match v with | .num n => -2 ^ 7 ≤ n ∧ n < 2 ^ 7 | _ => False
  else if t = "uint16_t".toList then
    match v with | .num n => 0 ≤ n ∧ n < 2 ^ 16 | _ => False
  else if t = "int16_t".toList then
    match v with | .num n => -2 ^ 15 ≤ n ∧ n < 2 ^ 15 | _ => False
  else if t = "uint32_t".toList then
    match v with | .num n => 0 ≤ n ∧ n < 2 ^ 32 | _ => False
  else if t = "int32_t".toList then
    match v with | .num n => -2 ^ 31 ≤ n ∧ n < 2 ^ 31 | _ => False
  else if t = "uint64_t".toList then
    match v with | .big n => 0 ≤ n ∧ n < 2 ^ 64 | _ => False
  else if t = "int64_t".toList then
    match v with | .big n => -2 ^ 63 ≤ n ∧ n < 2 ^ 63 | _ => False
  else if t = "char".toList then
    match v with | .str [c] => c < 2 ^ 8 | _ => False
  else False

/-- A well-formed field for the round-trip development: non-extension,
with an integer / char element type; scalars carry the bare primitive
name, arrays carry `arrayLength ≥ 2` and a type whose base is a
primitive (covering both the `uint16_t` and the `uint16_t[4]`
spellings generated for array fields). -/
def fieldWF (f : FieldDefinition) : Prop :=
  f.extension = false ∧
    match f.arrayLength with
    | none => f.type ∈ intCharTypes
    | some n => 2 ≤ n ∧ getBaseType f.type ∈ intCharTypes

/-- A payload value conforming to a field: a NUL-free string of at most
the declared length for char arrays, an exact-length array of
conforming scalars for other arrays, a conforming scalar otherwise. -/
def fieldValueConforms (f : FieldDefinition) (v : JsVal) : Prop :=
  match f.arrayLength with
  | none => scalarConforms f.type v
  | some n =>
    if getBaseType f.type = "char".toList then
      match v with
      | .str s => s.length ≤ n ∧ ∀ c ∈ s, 0 < c ∧ c < 2 ^ 8
      | _ => False
    else
      match v with
      | .arr vs => vs.length = n ∧ ∀ x ∈ vs, scalarConforms (getBaseType f.type) x
      | _ => False

/-- A payload object conforming to a field list: distinct keys, every
key a declared field with a conforming value, and every array field
present (missing array fields would complete to `[]`, which does not
survive the wire). -/
def payloadConforms (payload : PayloadObject) (fields : List FieldDefinition) : Prop :=
  (payload.map Prod.fst).Nodup
  ∧ (∀ p ∈ payload, ∃ f ∈ fields, f.name = p.1 ∧ fieldValueConforms f p.2)
  ∧ (∀ f ∈ fields, f.arrayLength.isSome → (objGet payload f.name).isSome)

/-- A well-formed message definition for the round-trip development. -/
def defWF (d : MessageDefinition) : Prop :=
  (∀ f ∈ d.fields, fieldWF f)
  ∧ (d.fields.map (fun f => f.name)).Nodup
  ∧ fullPayloadSizeOf d.fields ≤ 255
  ∧ d.id < 2 ^ 24

/-- The value the completed message carries for a field: the provided
value, or the field default when the caller omitted it. -/
def completedValueOf (payload : PayloadObject) (f : FieldDefinition) : JsVal :=
  match objGet payload f.name with
  | some v => v
  | none => getFieldDefaultValue f

/-- The bytes of a field list encoded back to back against a message
object (the shape `encodePayload` produces when nothing overlaps). -/
def encFieldsBytes (message : PayloadObject) (l : List FieldDefinition) : List Nat :=
  (l.map (fun f => encodeField f (objGet message f.name))).flatten

/-- The running decode offset after `decodePayloadLoop` has processed a
list of fields: frozen once it reaches the end of the payload,
advanced by `bytesRead` otherwise. -/
def decodeRunOffset (payload : List Nat) : List FieldDefinition → Nat → Nat
  | [], off => off
  | f :: rest, off =>
    if off ≥ payload.length then decodeRunOffset payload rest off
    else decodeRunOffset payload rest (off + (decodeField payload off f).2)

/-- A fresh parser state over a catalog. -/
def initParser (cat : DialectCatalog) (dialectName : String) : ParserState :=
  { catalog := cat, dialectName := dialectName, streamBuffer := StreamBuffer.init }

/-- Feed a byte string to `parseBytes` one byte per call, collecting the
per-call result lists. -/
def feedSeq (st : ParserState) : List Nat → List (List ParsedMAVLinkMessage) × ParserState
  | [] => ([], st)
  | b :: rest =>
    let r := parseBytes st [b]
    let rr := feedSeq r.2 rest
    (r.1 :: rr.1, rr.2)

/-- The stream buffer after a byte prefix `l` has been appended to a
fresh buffer, before any growth or compaction: the live range is
`[0, l.length)` and the tail of the backing array is still zero. -/
def midBuffer (l : List Nat) : StreamBuffer :=
  { buffer := l ++ List.replicate (DEFAULT_BUFFER_SIZE - l.length) 0,
    bufferStart := 0, bufferEnd := l.length }

/-! ## Concrete instances used by counterexamples and witnesses -/

/-- A core `uint32_t` field named `a`. -/
def exFieldU32 : FieldDefinition := { name := "a", type := "uint32_t".toList }

/-- A core `uint8_t` field named `x`. -/
def exFieldU8 : FieldDefinition := { name := "x", type := "uint8_t".toList }

/-- A core `uint8_t` field named `a`. -/
def exFieldA8 : FieldDefinition := { name := "a", type := "uint8_t".toList }

/-- An extension `uint8_t` field named `b`. -/
def exFieldExt8 : FieldDefinition :=
  { name := "b", type := "uint8_t".toList, extension := true }

/-- An extension `uint16_t` field named `b`. -/
def exFieldExt16 : FieldDefinition :=
  { name := "b", type := "uint16_t".toList, extension := true }

/-- Catalog with one message `SX` = core `a : uint8_t`, extension
`b : uint8_t` (id 5, CRC_EXTRA 9). -/
def catSX : DialectCatalog :=
  { definitions := [{ id := 5, name := "SX", fields := [exFieldA8, exFieldExt8] }],
    crcExtraTable := [(5, 9)] }

/-- Message for `SX` with `a = 1` and extension `b = 0`, forced to
protocol version 1. -/
def msgSXv1 : MessageInput :=
  { message_name := "SX", protocol_version := some 1,
    payload := some (.obj [("a", .num 1), ("b", .num 0)]) }

/-- Catalog with one message `SY` = core `a : uint8_t`, extension
`b : uint16_t` (id 5, CRC_EXTRA 9). -/
def catSY : DialectCatalog :=
  { definitions := [{ id := 5, name := "SY", fields := [exFieldA8, exFieldExt16] }],
    crcExtraTable := [(5, 9)] }

/-- Message for `SY` with `a = 1` and extension `b = 1` at v2: the high
zero byte of `b` falls to truncation and `b` decodes to `0`. -/
def msgSYv2 : MessageInput :=
  { message_name := "SY", protocol_version := some 2,
    payload := some (.obj [("a", .num 1), ("b", .num 1)]) }

/-- The v2 header-and-checksum bytes of a frame with `len = 0`,
`incompat_flags = 0x01` (signed), ids and flags zero, `message_id = 7`,
and a checksum valid over bytes 1–9 with CRC_EXTRA 99. -/
def sigFrameBytes : List Nat :=
  let crc := MAVLinkCRC.calculate [0, 1, 0, 0, 0, 0, 7, 0, 0] 99
  [0xfd, 0, 1, 0, 0, 0, 0, 7, 0, 0] ++ [crc % 256, (crc >>> 8) % 256]

/-- The CRC_EXTRA table used with `sigFrameBytes`. -/
def sigFrameTable : List (Nat × Nat) := [(7, 99)]

/-- `sigFrameBytes` followed by a full 13-byte (zero) signature. -/
def signedFrameBytes : List Nat := sigFrameBytes ++ List.replicate 13 0

/-- A core `uint8_t[256]` array field named `a`: its full size, 256,
exceeds what a length byte can carry. -/
def exFieldBig : FieldDefinition :=
  { name := "a", type := "uint8_t".toList, arrayLength := some 256 }

/-- Catalog with one message `BIG` = `a : uint8_t[256]` (id 1,
CRC_EXTRA 3): full payload size 256. -/
def catBIG : DialectCatalog :=
  { definitions := [{ id := 1, name := "BIG", fields := [exFieldBig] }],
    crcExtraTable := [(1, 3)] }

/-- Message for `BIG` with an empty payload object: completion fills
`a` with `[]`, which encodes as 256 zero bytes. -/
def msgBIG : MessageInput :=
  { message_name := "BIG", payload := some (.obj []) }

/-- Catalog with one scalar-only message `TEST` = `a : uint32_t`,
`x : uint8_t` (id 5, CRC_EXTRA 42), used by witnesses. -/
def catTEST : DialectCatalog :=
  { definitions := [{ id := 5, name := "TEST", fields := [exFieldU32, exFieldU8] }],
    crcExtraTable := [(5, 42)] }

/-- A conforming message for `TEST`. -/
def msgTEST : MessageInput :=
  { message_name := "TEST",
    payload := some (.obj [("a", .num 287454020), ("x", .num 7)]) }

/-! # Theorems -/

/-! ## Object helpers -/

/-- Setting a key makes it readable. -/
theorem objGet_objSet_self (obj : PayloadObject) (k : String) (v : JsVal) :
    objGet (objSet obj k v) k = some v := by
  induction obj with
  | nil => simp [objSet, objGet, List.find?]
  | cons p rest ih =>
    by_cases h : p.1 = k
    · simp [objSet, h, objGet, List.find?]
    · simp only [objSet, if_neg h, objGet] at ih ⊢
      rw [List.find?_cons_of_neg _ (by simp [h])]
      exact ih

/-- Setting one key leaves the others unchanged. -/
theorem objGet_objSet_ne (obj : PayloadObject) (k k' : String) (v : JsVal) (h : k' ≠ k) :
    objGet (objSet obj k v) k' = objGet obj k' := by
  induction obj with
  | nil => simp [objSet, objGet, List.find?, Ne.symm h]
  | cons p rest ih =>
    by_cases hp : p.1 = k
    · simp [objSet, hp, objGet, List.find?, Ne.symm h]
    · simp only [objSet, if_neg hp, objGet] at ih ⊢
      by_cases hp' : p.1 = k'
      · rw [List.find?_cons_of_pos _ (by simp [hp']), List.find?_cons_of_pos _ (by simp [hp'])]
      · rw [List.find?_cons_of_neg _ (by simp [hp']), List.find?_cons_of_neg _ (by simp [hp'])]
        exact ih

/-! ## Byte-level helpers -/

/-- `setBytes` never changes the buffer length. -/
theorem setBytes_length (buf : List Nat) (off : Nat) (bs : List Nat) :
    (setBytes buf off bs).length = buf.length := by
  simp only [setBytes, List.length_append, List.length_take, List.length_drop]
  omega

/-- A single-byte bounds-checked read. -/
theorem readLE_one (buf : List Nat) (off : Nat) :
    readLE buf off 1 = if off < buf.length then some (buf.getD off 0) else none := by
  unfold readLE
  by_cases h : off + 1 ≤ buf.length
  · have hlt : off < buf.length := by omega
    rw [if_pos h, if_pos hlt, List.drop_eq_getElem_cons hlt, List.take_succ_cons, List.take_zero]
    simp [leBytesToNat, List.getD_eq_getElem?_getD, List.getElem?_eq_getElem hlt]
  · rw [if_neg h, if_neg (by omega)]

/-! ## C10: unknown type names are silently one byte -/

/-- C10: for every type string that is not one of the eleven primitive
type names and not an inline array form, `getTypeSize` returns 1,
`decodeSingleValue` reads a single unsigned byte (0 past the end, via
the caught RangeError), and `encodeSingleValue` writes the value as a
single unsigned byte; no codec operation rejects the type. -/
theorem c10_unknown_types_one_byte (t : List Char) (buf : List Nat) (off : Nat)
    (v : Option JsVal)
    (hprim : t ∉ ["uint8_t".toList, "int8_t".toList, "uint16_t".toList, "int16_t".toList,
      "uint32_t".toList, "int32_t".toList, "uint64_t".toList, "int64_t".toList,
      "float".toList, "double".toList, "char".toList])
    (hbr : ¬('[' ∈ t ∧ ']' ∈ t)) :
    getTypeSize t = 1
    ∧ decodeSingleValue buf off t =
        (.num (if off < buf.length then (buf.getD off 0 : Int) else 0), 1)
    ∧ encodeSingleValue t v = [toWire 8 (jsToNumber (v.getD (getDefaultValue t)))] := by
  simp only [List.mem_cons, not_or, List.not_mem_nil] at hprim
  obtain ⟨h1, h2, h3, h4, h5, h6, h7, h8, h9, h10, h11, -⟩ := hprim
  have hch : ¬(t.take 5 = "char[".toList ∧ t.getLast? = some ']') := by
    rintro ⟨hc5, hcl⟩
    refine hbr ⟨List.mem_of_mem_take (n := 5) ?_, ?_⟩
    · rw [hc5]; decide
    · obtain ⟨hne, heq⟩ := List.mem_getLast?_eq_getLast (show _ ∈ t.getLast? from hcl)
      rw [heq]
      exact List.getLast_mem hne
  refine ⟨?_, ?_, ?_⟩
  · unfold getTypeSize
    rw [if_neg (by rintro (h | h | h); exacts [h1 h, h2 h, h11 h]),
      if_neg (by rintro (h | h); exacts [h3 h, h4 h]),
      if_neg (by rintro (h | h | h); exacts [h5 h, h6 h, h9 h]),
      if_neg (by rintro (h | h | h); exacts [h7 h, h8 h, h10 h])]
  · unfold decodeSingleValue
    rw [if_neg hch, if_neg hbr]
    unfold decodeScalarValue
    rw [if_neg h1, if_neg h2, if_neg h3, if_neg h4, if_neg h5, if_neg h6, if_neg h7,
      if_neg h8, if_neg h9, if_neg h10, if_neg h11, readLE_one]
    by_cases hb : off < buf.length
    · rw [if_pos hb]
      simp [hb]
    · rw [if_neg hb]
      simp [hb]
  · unfold encodeSingleValue
    rw [if_neg h1, if_neg h2, if_neg h3, if_neg h4, if_neg h5, if_neg h6, if_neg h7,
      if_neg h8, if_neg h9, if_neg h10, if_neg h11, if_neg hch]

/-- C10 witness: the type string `foo` at a concrete buffer and value. -/
theorem c10_witness :
    getTypeSize "foo".toList = 1
    ∧ decodeSingleValue [9] 0 "foo".toList =
        (.num (if 0 < ([9] : List Nat).length then (([9] : List Nat).getD 0 0 : Int) else 0), 1)
    ∧ encodeSingleValue "foo".toList (some (.num 5)) =
        [toWire 8 (jsToNumber ((some (JsVal.num 5)).getD (getDefaultValue "foo".toList)))] :=
  c10_unknown_types_one_byte "foo".toList [9] 0 (some (.num 5)) (by decide) (by decide)

/-! ## C9 counterexample, C6 counterexample, C5 and C4 evaluations -/

/-- C9 counterexample: fields `a : uint32_t`, `x : uint8_t` and buffer
`[5, 6]`.  The wire offset of `x` is 4, at or beyond the buffer end
(length 2), so the claim demands its default 0; but the failed 4-byte
read of `a` advances the running offset by only 1, and `x` decodes the
in-buffer byte 6. -/
theorem c9_counterexample :
    sortFieldsByWireOrder [exFieldU32, exFieldU8] = [exFieldU32, exFieldU8]
    ∧ getFieldSize exFieldU32 = 4
    ∧ ([5, 6] : List Nat).length ≤ 4
    ∧ objGet (decodePayload [5, 6] [exFieldU32, exFieldU8]) "x" = some (.num 6)
    ∧ getFieldDefaultValue exFieldU8 = .num 0
    ∧ JsVal.num 6 ≠ JsVal.num 0 := by
  refine ⟨by decide, by decide, by decide, rfl, rfl, by simp⟩

/-- C6 counterexample: a complete 12-byte v2 frame with the signature
bit set and no trailing bytes.  The claim demands `(none, offset)`;
the code emits the frame and consumes the 12 bytes. -/
theorem c6_counterexample :
    (parseFrame sigFrameBytes sigFrameTable).frame.isSome = true
    ∧ (parseFrame sigFrameBytes sigFrameTable).bytesConsumed = 12 := by
  refine ⟨by decide, by decide⟩

/-- C5 failing input: the same frame followed by a full 13-byte zero
signature.  The frame's checksum is valid over the claimed range
(offset+1 through the last payload byte), yet the code reports
`crc_ok = false`, because its CRC input also covers the checksum bytes
and the first 11 signature bytes. -/
theorem c5_crc_covers_signature_bytes :
    (parseFrame signedFrameBytes sigFrameTable).frame.map (fun f => f.crc_ok) =
      some (some false)
    ∧ (parseFrame signedFrameBytes sigFrameTable).frame.map (fun f => f.signature.isSome) =
      some true
    ∧ (parseFrame signedFrameBytes sigFrameTable).frame.map (fun f => f.checksum) =
      some (MAVLinkCRC.calculate [0, 1, 0, 0, 0, 0, 7, 0, 0] 99)
    ∧ MAVLinkCRC.validateWithTable ((signedFrameBytes.take 10).drop 1) 7
        (MAVLinkCRC.calculate [0, 1, 0, 0, 0, 0, 7, 0, 0] 99) sigFrameTable = true := by
  refine ⟨by decide, by decide, by decide, by decide⟩

/-- C4 failing input: message `SX` (core `a : uint8_t`, extension
`b : uint8_t`) serialized at protocol version 1 with `b = 0`.  The
full payload size is 2, but the emitted v1 frame carries payload
length 1: the zero extension byte is truncated even at v1. -/
theorem c4_v1_truncates_zero_extensions :
    (serializeMessage catSX msgSXv1).toOption = some [254, 1, 0, 1, 1, 5, 1, 1, 70]
    ∧ ([254, 1, 0, 1, 1, 5, 1, 1, 70] : List Nat).getD 1 0 = 1
    ∧ fullPayloadSizeOf [exFieldA8, exFieldExt8] = 2
    ∧ msgSXv1.protocol_version = some 1 := by
  refine ⟨by decide, by decide, by decide, by decide⟩

/-! ## C2: wire-order sort -/

/-- The comparator is antisymmetric by negation. -/
theorem fieldCmp_swap (a b : Nat × FieldDefinition) : fieldCmp b a = -fieldCmp a b := by
  unfold fieldCmp
  by_cases h : getFieldTypeSize a.2 = getFieldTypeSize b.2
  · simp [h]
  · rw [if_pos (by omega), if_pos (by omega)]
    omega

/-- Characterisation of a non-positive comparison: the left element has
the larger size, or equal sizes and the smaller original index. -/
theorem fieldCmp_le_iff (a b : Nat × FieldDefinition) :
    fieldCmp a b ≤ 0 ↔
      getFieldTypeSize b.2 < getFieldTypeSize a.2
        ∨ (getFieldTypeSize b.2 = getFieldTypeSize a.2 ∧ a.1 ≤ b.1) := by
  unfold fieldCmp
  by_cases h : getFieldTypeSize b.2 = getFieldTypeSize a.2
  · simp [h]
  · rw [if_pos (by omega)]
    omega

/-- The comparator order is transitive. -/
theorem fieldCmp_trans {a b c : Nat × FieldDefinition}
    (hab : fieldCmp a b ≤ 0) (hbc : fieldCmp b c ≤ 0) : fieldCmp a c ≤ 0 := by
  rw [fieldCmp_le_iff] at hab hbc ⊢
  omega

/-- Insertion produces a permutation. -/
theorem insertByCmp_perm (x : Nat × FieldDefinition) (l : List (Nat × FieldDefinition)) :
    List.Perm (insertByCmp x l) (x :: l) := by
  induction l with
  | nil => simp [insertByCmp]
  | cons y ys ih =>
    rw [insertByCmp]
    by_cases hc : fieldCmp x y < 0
    · rw [if_pos hc]
    · rw [if_neg hc]
      exact (ih.cons y).trans (List.Perm.swap x y ys)

/-- Insertion preserves comparator sortedness. -/
theorem insertByCmp_pairwise (x : Nat × FieldDefinition) (l : List (Nat × FieldDefinition))
    (h : l.Pairwise (fun a b => fieldCmp a b ≤ 0)) :
    (insertByCmp x l).Pairwise (fun a b => fieldCmp a b ≤ 0) := by
  induction l with
  | nil => simp [insertByCmp]
  | cons y ys ih =>
    obtain ⟨hy, hys⟩ := List.pairwise_cons.mp h
    rw [insertByCmp]
    by_cases hc : fieldCmp x y < 0
    · rw [if_pos hc]
      refine List.pairwise_cons.mpr ⟨?_, h⟩
      intro b hb
      rcases List.mem_cons.mp hb with rfl | hb
      · exact le_of_lt hc
      · exact fieldCmp_trans (le_of_lt hc) (hy b hb)
    · rw [if_neg hc]
      have hyx : fieldCmp y x ≤ 0 := by
        rw [fieldCmp_swap]
        omega
      refine List.pairwise_cons.mpr ⟨?_, ih hys⟩
      intro b hb
      rcases List.mem_cons.mp ((insertByCmp_perm x ys).mem_iff.mp hb) with rfl | hb
      · exact hyx
      · exact hy b hb

/-- The comparator sort permutes its input. -/
theorem sortByCmp_perm (l : List (Nat × FieldDefinition)) :
    List.Perm (sortByCmp l) l := by
  induction l with
  | nil => simp [sortByCmp]
  | cons x xs ih =>
    rw [sortByCmp]
    exact (insertByCmp_perm x (sortByCmp xs)).trans (ih.cons x)

/-- The comparator sort is sorted. -/
theorem sortByCmp_pairwise (l : List (Nat × FieldDefinition)) :
    (sortByCmp l).Pairwise (fun a b => fieldCmp a b ≤ 0) := by
  induction l with
  | nil => simp [sortByCmp]
  | cons x xs ih =>
    rw [sortByCmp]
    exact insertByCmp_pairwise x (sortByCmp xs) ih

/-- Two permuted index-sorted lists with distinct indices on the left
are equal. -/
theorem perm_sorted_fst_unique :
    ∀ (l₁ l₂ : List (Nat × FieldDefinition)), List.Perm l₁ l₂ →
      l₁.Pairwise (fun a b => a.1 ≤ b.1) → l₂.Pairwise (fun a b => a.1 ≤ b.1) →
      l₁.Pairwise (fun a b => a.1 ≠ b.1) → l₁ = l₂
  | [], l₂, hp, _, _, _ => (hp.symm.eq_nil).symm
  | x :: xs, [], hp, _, _, _ => absurd hp.eq_nil (by simp)
  | x :: xs, y :: ys, hp, h₁, h₂, hne => by
    by_cases hxy : x = y
    · subst hxy
      have := perm_sorted_fst_unique xs ys hp.cons_inv
        (List.pairwise_cons.mp h₁).2 (List.pairwise_cons.mp h₂).2
        (List.pairwise_cons.mp hne).2
      rw [this]
    · have hx2 : x ∈ y :: ys := hp.mem_iff.mp (List.mem_cons_self x xs)
      have hy1 : y ∈ x :: xs := hp.symm.mem_iff.mp (List.mem_cons_self y ys)
      have hxys : x ∈ ys := by
        rcases List.mem_cons.mp hx2 with h | h
        · exact absurd h hxy
        · exact h
      have hyxs : y ∈ xs := by
        rcases List.mem_cons.mp hy1 with h | h
        · exact absurd h.symm hxy
        · exact h
      have hle1 : x.1 ≤ y.1 := (List.pairwise_cons.mp h₁).1 y hyxs
      have hle2 : y.1 ≤ x.1 := (List.pairwise_cons.mp h₂).1 x hxys
      have hne1 : x.1 ≠ y.1 := (List.pairwise_cons.mp hne).1 y hyxs
      omega

/-- Projecting the filtered enumeration recovers the filtered list. -/
theorem enumFrom_filter_map_snd (q : FieldDefinition → Bool) :
    ∀ (n : Nat) (l : List FieldDefinition),
      ((List.enumFrom n l).filter (fun p => q p.2)).map Prod.snd = l.filter q := by
  intro n l
  induction l generalizing n with
  | nil => simp
  | cons a l ih =>
    rw [List.enumFrom_cons]
    by_cases hq : q a
    · simp only [List.filter_cons]
      simp [hq, ih]
    · simp only [List.filter_cons]
      simp [hq, ih]

/-- The enumeration has strictly increasing indices. -/
theorem enumFrom_pairwise_fst_lt (n : Nat) (l : List FieldDefinition) :
    (List.enumFrom n l).Pairwise (fun a b => a.1 < b.1) := by
  induction l generalizing n with
  | nil => simp
  | cons a l ih =>
    rw [List.enumFrom_cons]
    refine List.pairwise_cons.mpr ⟨?_, ih (n + 1)⟩
    intro b hb
    have : n + 1 ≤ b.1 := by
      have := List.le_fst_of_mem_enumFrom hb
      omega
    omega

/-- C2: `sortFieldsByWireOrder` keeps the non-extension fields first,
sorted by non-increasing element size; they are followed by the
extension fields in declaration order; and the sort is stable — for
every element size `s`, the core fields of size `s` appear exactly in
their declaration order. -/
theorem c2_wire_order_sort (fields : List FieldDefinition) :
    sortFieldsByWireOrder fields =
      (sortFieldsByWireOrder fields).take (fields.filter (fun f => !f.extension)).length
        ++ fields.filter (fun f => f.extension)
    ∧ ((sortFieldsByWireOrder fields).take
        (fields.filter (fun f => !f.extension)).length).Pairwise
        (fun a b => getFieldTypeSize b ≤ getFieldTypeSize a)
    ∧ ∀ s : Nat,
        ((sortFieldsByWireOrder fields).take
          (fields.filter (fun f => !f.extension)).length).filter
            (fun f => getFieldTypeSize f == s)
        = (fields.filter (fun f => !f.extension)).filter
            (fun f => getFieldTypeSize f == s) := by
  have hdef : sortFieldsByWireOrder fields =
      (sortByCmp (fields.enum.filter (fun p => !p.2.extension))).map Prod.snd
        ++ (fields.enum.filter (fun p => p.2.extension)).map Prod.snd := rfl
  have hE : (fields.enum.filter (fun p => p.2.extension)).map Prod.snd
      = fields.filter (fun f => f.extension) :=
    enumFrom_filter_map_snd (fun f => f.extension) 0 fields
  have hC : (fields.enum.filter (fun p => !p.2.extension)).map Prod.snd
      = fields.filter (fun f => !f.extension) :=
    enumFrom_filter_map_snd (fun f => !f.extension) 0 fields
  have hlen : ((sortByCmp (fields.enum.filter (fun p => !p.2.extension))).map Prod.snd).length
      = (fields.filter (fun f => !f.extension)).length := by
    rw [List.length_map, (sortByCmp_perm _).length_eq, ← List.length_map _ Prod.snd, hC]
  have htake : (sortFieldsByWireOrder fields).take
      (fields.filter (fun f => !f.extension)).length
      = (sortByCmp (fields.enum.filter (fun p => !p.2.extension))).map Prod.snd := by
    rw [hdef, ← hlen, List.take_left]
  refine ⟨?_, ?_, ?_⟩
  · rw [htake, hdef, hE]
  · rw [htake]
    refine List.pairwise_map.mpr ?_
    refine (sortByCmp_pairwise _).imp ?_
    intro a b h
    rw [fieldCmp_le_iff] at h
    omega
  · intro s
    rw [htake, ← hC, List.filter_map, List.filter_map]
    congr 1
    refine (perm_sorted_fst_unique _ _ (((sortByCmp_perm _).filter _).symm) ?_ ?_ ?_).symm
    · refine ((enumFrom_pairwise_fst_lt 0 fields).filter _).filter _ |>.imp ?_
      intro a b h
      omega
    · refine ((sortByCmp_pairwise _).filter _).imp_of_mem ?_
      intro a b ha hb h
      have hsa : getFieldTypeSize a.2 = s := by
        have := List.of_mem_filter ha
        simpa using this
      have hsb : getFieldTypeSize b.2 = s := by
        have := List.of_mem_filter hb
        simpa using this
      rw [fieldCmp_le_iff] at h
      omega
    · refine ((enumFrom_pairwise_fst_lt 0 fields).filter _).filter _ |>.imp ?_
      intro a b h
      omega

/-! ## C3: truncation never discards core payload -/

/-- The writing loop preserves the buffer length. -/
theorem encodePayloadWrite_length (message : PayloadObject) :
    ∀ (l : List FieldDefinition) (buf : List Nat) (off : Nat),
      (encodePayloadWrite message l buf off).length = buf.length := by
  intro l
  induction l with
  | nil => intro buf off; rfl
  | cons f rest ih =>
    intro buf off
    rw [encodePayloadWrite, ih, setBytes_length]

/-- The first component of the extension scan accumulates the sizes of
the non-extension fields. -/
theorem extScan_fst : ∀ (l : List FieldDefinition) (c e : Nat) (h : Bool),
    (extScan l c e h).1 = c + corePayloadSizeOf l := by
  intro l
  induction l with
  | nil => intro c e h; simp [extScan, corePayloadSizeOf]
  | cons f rest ih =>
    intro c e h
    rw [extScan]
    by_cases hf : f.extension
    · rw [if_pos hf, ih]
      simp [corePayloadSizeOf, List.filter_cons, hf]
    · rw [if_neg hf, ih]
      simp [corePayloadSizeOf, List.filter_cons, hf]
      omega

/-- The core payload is at most the full payload. -/
theorem corePayloadSizeOf_le_full (l : List FieldDefinition) :
    corePayloadSizeOf l ≤ fullPayloadSizeOf l := by
  induction l with
  | nil => simp [corePayloadSizeOf, fullPayloadSizeOf]
  | cons f rest ih =>
    simp only [corePayloadSizeOf, fullPayloadSizeOf, List.filter_cons, List.map_cons,
      List.sum_cons] at *
    by_cases hf : f.extension <;> simp [hf] <;> omega

/-- The wire-order sort permutes the field list. -/
theorem sortFieldsByWireOrder_perm (fields : List FieldDefinition) :
    List.Perm (sortFieldsByWireOrder fields) fields := by
  have hdef : sortFieldsByWireOrder fields =
      (sortByCmp (fields.enum.filter (fun p => !p.2.extension))).map Prod.snd
        ++ (fields.enum.filter (fun p => p.2.extension)).map Prod.snd := rfl
  rw [hdef]
  have h1 : List.Perm ((sortByCmp (fields.enum.filter (fun p => !p.2.extension))).map Prod.snd)
      ((fields.enum.filter (fun p => !p.2.extension)).map Prod.snd) :=
    (sortByCmp_perm _).map Prod.snd
  have h2 := h1.append
    (List.Perm.refl ((fields.enum.filter (fun p => p.2.extension)).map Prod.snd))
  refine h2.trans ?_
  rw [show (fields.enum.filter (fun p => !p.2.extension)).map Prod.snd
      = fields.filter (fun f => !f.extension) from
      enumFrom_filter_map_snd (fun f => !f.extension) 0 fields,
    show (fields.enum.filter (fun p => p.2.extension)).map Prod.snd
      = fields.filter (fun f => f.extension) from
      enumFrom_filter_map_snd (fun f => f.extension) 0 fields]
  simpa using List.filter_append_perm (fun f => !f.extension) fields

/-- Permuted field lists have the same core payload size. -/
theorem corePayloadSizeOf_perm {l₁ l₂ : List FieldDefinition} (h : List.Perm l₁ l₂) :
    corePayloadSizeOf l₁ = corePayloadSizeOf l₂ :=
  ((h.filter _).map getFieldSize).sum_eq

/-- Permuted field lists have the same full payload size. -/
theorem fullPayloadSizeOf_perm {l₁ l₂ : List FieldDefinition} (h : List.Perm l₁ l₂) :
    fullPayloadSizeOf l₁ = fullPayloadSizeOf l₂ :=
  (h.map getFieldSize).sum_eq

/-- Arithmetic core of the trim clamp: whatever the scan proposes, the
final length never drops below the clamp value. -/
theorem trim_ge_core (F : List Nat) (c tA : Nat) (hc : c ≤ F.length) :
    c ≤ (if (if tA < c then c else tA) < F.length then F.take (if tA < c then c else tA)
      else F).length := by
  by_cases h : (if tA < c then c else tA) < F.length
  · rw [if_pos h, List.length_take]
    by_cases h2 : tA < c
    · rw [if_pos h2] at h ⊢
      omega
    · rw [if_neg h2] at h ⊢
      omega
  · rw [if_neg h]
    exact hc

/-- The length of an encoded payload never drops below the core payload
size: the trim is clamped at `corePayloadSize`. -/
theorem encodePayload_length_ge_core (message : PayloadObject)
    (fields : List FieldDefinition) :
    corePayloadSizeOf fields ≤ (encodePayload message fields).length := by
  have hperm := sortFieldsByWireOrder_perm fields
  have hcore : corePayloadSizeOf (sortFieldsByWireOrder fields) = corePayloadSizeOf fields :=
    corePayloadSizeOf_perm hperm
  have hfull_len :
      (encodePayloadWrite message (sortFieldsByWireOrder fields)
        (List.replicate ((List.map getFieldSize (sortFieldsByWireOrder fields)).sum) 0)
        0).length
      = fullPayloadSizeOf (sortFieldsByWireOrder fields) := by
    rw [encodePayloadWrite_length, List.length_replicate]
    rfl
  have hscan := extScan_fst (sortFieldsByWireOrder fields) 0 0 false
  have hlecore := corePayloadSizeOf_le_full (sortFieldsByWireOrder fields)
  have heq : (extScan (sortFieldsByWireOrder fields) 0 0 false).1
      = corePayloadSizeOf fields := by
    rw [hscan, hcore]
    omega
  simp only [encodePayload]
  rw [← heq]
  split
  · rw [hfull_len]
    omega
  · exact trim_ge_core _ _ _ (by rw [hfull_len]; omega)

/-- The length of a v2 frame from `createFrame`. -/
theorem createFrame_length_v2 (messageId : Nat) (payload : List Nat)
    (systemId componentId sequence crcExtra : Nat) :
    (createFrame messageId payload systemId componentId sequence crcExtra (some 2)).length
      = 12 + payload.length := by
  simp [createFrame]
  omega

/-- The length of a v1 frame from `createFrame` (any non-2 version). -/
theorem createFrame_length_v1 (messageId : Nat) (payload : List Nat)
    (systemId componentId sequence crcExtra v : Nat) (hv : v ≠ 2) :
    (createFrame messageId payload systemId componentId sequence crcExtra (some v)).length
      = 8 + payload.length := by
  simp [createFrame, hv]
  omega

/-- C3: for every message definition and payload object, `encodePayload`
returns at least `corePayloadSize` bytes; consequently a serialized v2
message is at least `core_payload_size + 10 + 2` bytes long. -/
theorem c3_truncation_never_discards_core (message : PayloadObject)
    (fields : List FieldDefinition) (cat : DialectCatalog) (m : MessageInput)
    (d : MessageDefinition) (bs : List Nat) :
    corePayloadSizeOf fields ≤ (encodePayload message fields).length
    ∧ (getDefByName cat m.message_name = some d →
        serializeMessage cat m = .ok bs →
        m.protocol_version.getD (if d.id > 255 then 2 else 1) = 2 →
        corePayloadSizeOf d.fields + 12 ≤ bs.length) := by
  refine ⟨encodePayload_length_ge_core message fields, ?_⟩
  intro hdef hser hver
  unfold serializeMessage at hser
  rw [hdef] at hser
  match hp : m.payload with
  | none => rw [hp] at hser; exact absurd hser (by simp)
  | some .nonObj => rw [hp] at hser; exact absurd hser (by simp)
  | some (.obj p) =>
    rw [hp] at hser
    simp only at hser
    match hce : getCrcExtra cat d.id with
    | none => rw [hce] at hser; exact absurd hser (by simp)
    | some ce =>
      rw [hce] at hser
      simp only [Except.ok.injEq] at hser
      rw [← hser, hver, createFrame_length_v2]
      have := encodePayload_length_ge_core (completeMessageWithDefaults p d.fields) d.fields
      omega

/-- C3 witness: a concrete encode and a concrete v2 serialization. -/
theorem c3_witness :
    corePayloadSizeOf [exFieldA8] ≤ (encodePayload [] [exFieldA8]).length
    ∧ corePayloadSizeOf [exFieldA8, exFieldExt16] + 12
        ≤ ([253, 2, 0, 0, 0, 1, 1, 5, 0, 0, 1, 1, 178, 73] : List Nat).length :=
  ⟨(c3_truncation_never_discards_core [] [exFieldA8] catSY msgSYv2
      { id := 5, name := "SY", fields := [exFieldA8, exFieldExt16] }
      [253, 2, 0, 0, 0, 1, 1, 5, 0, 0, 1, 1, 178, 73]).1,
    (c3_truncation_never_discards_core [] [exFieldA8] catSY msgSYv2
      { id := 5, name := "SY", fields := [exFieldA8, exFieldExt16] }
      [253, 2, 0, 0, 0, 1, 1, 5, 0, 0, 1, 1, 178, 73]).2 (by rfl) (by rfl) (by rfl)⟩

/-! ## C8: serialize failure modes -/

/-- C8: `serializeMessage` fails with `UnknownMessage` exactly on a name
absent from the catalog, with `MalformedMessage` exactly on a missing
or non-object payload, with `MissingCrcExtra` exactly on a missing
CRC_EXTRA for the looked-up id, and succeeds in every other case. -/
theorem c8_serialize_failure_modes (cat : DialectCatalog) (m : MessageInput) :
    (getDefByName cat m.message_name = none →
      serializeMessage cat m = .error .unknownMessage)
    ∧ (∀ d, getDefByName cat m.message_name = some d →
        (∀ p, m.payload ≠ some (.obj p)) →
        serializeMessage cat m = .error .malformedMessage)
    ∧ (∀ d p, getDefByName cat m.message_name = some d →
        m.payload = some (.obj p) → getCrcExtra cat d.id = none →
        serializeMessage cat m = .error .missingCrcExtra)
    ∧ (∀ d p ce, getDefByName cat m.message_name = some d →
        m.payload = some (.obj p) → getCrcExtra cat d.id = some ce →
        ∃ bs, serializeMessage cat m = .ok bs) := by
  refine ⟨?_, ?_, ?_, ?_⟩
  · intro h
    unfold serializeMessage
    rw [h]
  · intro d h hp
    unfold serializeMessage
    rw [h]
    cases hmp : m.payload with
    | none => simp
    | some slot =>
      cases slot with
      | nonObj => simp
      | obj p => exact absurd hmp (hp p)
  · intro d p h hpay hce
    unfold serializeMessage
    rw [h, hpay]
    simp only
    rw [hce]
  · intro d p ce h hpay hce
    refine ⟨createFrame d.id
      (encodePayload (completeMessageWithDefaults p d.fields) d.fields)
      (m.system_id.getD 1) (m.component_id.getD 1) (m.sequence.getD 0) ce
      (some (m.protocol_version.getD (if d.id > 255 then 2 else 1))), ?_⟩
    unfold serializeMessage
    rw [h, hpay]
    simp only
    rw [hce]

/-- C8 witness: an unknown name fails and a well-formed message
serializes. -/
theorem c8_witness :
    serializeMessage catTEST { message_name := "NOPE" } = .error .unknownMessage
    ∧ ∃ bs, serializeMessage catTEST msgTEST = .ok bs :=
  ⟨(c8_serialize_failure_modes catTEST { message_name := "NOPE" }).1 (by rfl),
    (c8_serialize_failure_modes catTEST msgTEST).2.2.2
      { id := 5, name := "TEST", fields := [exFieldU32, exFieldU8] }
      [("a", .num 287454020), ("x", .num 7)] 42 (by rfl) (by rfl) (by rfl)⟩

/-! ## C9: decode defaults -/

/-- The decode loop splits along a split of its field list, with the
offset of the second part given by `decodeRunOffset`. -/
theorem decodePayloadLoop_append (payload : List Nat) :
    ∀ (l1 l2 : List FieldDefinition) (obj : PayloadObject) (off : Nat),
      decodePayloadLoop payload (l1 ++ l2) obj off
        = decodePayloadLoop payload l2 (decodePayloadLoop payload l1 obj off)
            (decodeRunOffset payload l1 off) := by
  intro l1
  induction l1 with
  | nil => intro l2 obj off; rfl
  | cons f rest ih =>
    intro l2 obj off
    rw [List.cons_append, decodePayloadLoop, decodeRunOffset]
    by_cases h : off ≥ payload.length
    · rw [if_pos h, if_pos (by omega), ih, decodePayloadLoop]
      rw [if_pos h]
    · rw [if_neg h, if_neg (by omega), ih, decodePayloadLoop]
      rw [if_neg h]

/-- Fields outside a name leave that name's binding unchanged. -/
theorem decodePayloadLoop_objGet_notin (payload : List Nat) (name : String) :
    ∀ (l : List FieldDefinition) (obj : PayloadObject) (off : Nat),
      (∀ g ∈ l, g.name ≠ name) →
      objGet (decodePayloadLoop payload l obj off) name = objGet obj name := by
  intro l
  induction l with
  | nil => intro obj off _; rfl
  | cons f rest ih =>
    intro obj off h
    have hf : f.name ≠ name := h f (List.mem_cons_self f rest)
    have hrest : ∀ g ∈ rest, g.name ≠ name := fun g hg => h g (List.mem_cons_of_mem f hg)
    rw [decodePayloadLoop]
    by_cases hoff : off ≥ payload.length
    · rw [if_pos hoff, ih _ _ hrest, objGet_objSet_ne _ _ _ _ (Ne.symm hf)]
    · rw [if_neg hoff, ih _ _ hrest, objGet_objSet_ne _ _ _ _ (Ne.symm hf)]

/-- The decode loop preserves the presence of a binding. -/
theorem decodePayloadLoop_objGet_isSome (payload : List Nat) (name : String) :
    ∀ (l : List FieldDefinition) (obj : PayloadObject) (off : Nat),
      (objGet obj name).isSome = true →
      (objGet (decodePayloadLoop payload l obj off) name).isSome = true := by
  intro l
  induction l with
  | nil => intro obj off h; exact h
  | cons f rest ih =>
    intro obj off h
    have hset : ∀ v, (objGet (objSet obj f.name v) name).isSome = true := by
      intro v
      by_cases hn : name = f.name
      · rw [hn, objGet_objSet_self]
        rfl
      · rw [objGet_objSet_ne _ _ _ _ hn]
        exact h
    rw [decodePayloadLoop]
    by_cases hoff : off ≥ payload.length
    · rw [if_pos hoff]
      exact ih _ _ (hset _)
    · rw [if_neg hoff]
      exact ih _ _ (hset _)

/-- The decode loop binds every processed field name. -/
theorem decodePayloadLoop_objGet_mem (payload : List Nat) :
    ∀ (l : List FieldDefinition) (f : FieldDefinition) (obj : PayloadObject) (off : Nat),
      f ∈ l → (objGet (decodePayloadLoop payload l obj off) f.name).isSome = true := by
  intro l
  induction l with
  | nil => intro f obj off h; cases h
  | cons g rest ih =>
    intro f obj off h
    rcases List.mem_cons.mp h with rfl | h
    · rw [decodePayloadLoop]
      by_cases hoff : off ≥ payload.length
      · rw [if_pos hoff]
        exact decodePayloadLoop_objGet_isSome payload f.name rest _ _
          (by rw [objGet_objSet_self]; rfl)
      · rw [if_neg hoff]
        exact decodePayloadLoop_objGet_isSome payload f.name rest _ _
          (by rw [objGet_objSet_self]; rfl)
    · rw [decodePayloadLoop]
      by_cases hoff : off ≥ payload.length
      · rw [if_pos hoff]
        exact ih f _ _ h
      · rw [if_neg hoff]
        exact ih f _ _ h

/-- C9 (amended): `decodePayload` returns a value for every declared
field; a field whose turn arrives with the running decode offset at or
beyond the end of the buffer receives `getFieldDefaultValue`, which is
`[]` for any field with `arrayLength > 1` (char arrays included),
`0n` for 64-bit scalars, `''` for inline char arrays, `'\0'` for a
bare char, and `0` for every other scalar. -/
theorem c9_decode_defaults (payload : List Nat) (fields : List FieldDefinition) :
    (∀ f ∈ fields, (objGet (decodePayload payload fields) f.name).isSome = true)
    ∧ (∀ l1 f l2, sortFieldsByWireOrder fields = l1 ++ f :: l2 →
        payload.length ≤ decodeRunOffset payload l1 0 →
        (∀ g ∈ l2, g.name ≠ f.name) →
        objGet (decodePayload payload fields) f.name = some (getFieldDefaultValue f))
    ∧ (∀ f : FieldDefinition,
        (f.arrayLength.getD 0 > 1 → getFieldDefaultValue f = .arr [])
        ∧ (f.arrayLength.getD 0 ≤ 1 →
            (getBaseType f.type = "uint64_t".toList ∨ getBaseType f.type = "int64_t".toList) →
            getFieldDefaultValue f = .big 0)
        ∧ (f.arrayLength.getD 0 ≤ 1 → getBaseType f.type = "char".toList →
            '[' ∈ f.type → getFieldDefaultValue f = .str [])
        ∧ (f.arrayLength.getD 0 ≤ 1 → getBaseType f.type = "char".toList →
            '[' ∉ f.type → getFieldDefaultValue f = .str [0])
        ∧ (f.arrayLength.getD 0 ≤ 1 →
            getBaseType f.type ∉ ["uint64_t".toList, "int64_t".toList, "char".toList] →
            getFieldDefaultValue f = .num 0)) := by
  refine ⟨?_, ?_, ?_⟩
  · intro f hf
    have hmem : f ∈ sortFieldsByWireOrder fields :=
      (sortFieldsByWireOrder_perm fields).symm.mem_iff.mp hf
    exact decodePayloadLoop_objGet_mem payload _ f [] 0 hmem
  · intro l1 f l2 hsplit hoff hlater
    unfold decodePayload
    rw [hsplit, decodePayloadLoop_append, decodePayloadLoop,
      if_pos (by omega), decodePayloadLoop_objGet_notin payload _ _ _ _ hlater,
      objGet_objSet_self]
  · intro f
    refine ⟨?_, ?_, ?_, ?_, ?_⟩
    · intro h
      unfold getFieldDefaultValue
      rw [if_pos h]
    · intro h hb
      unfold getFieldDefaultValue
      rw [if_neg (by omega), if_pos hb]
    · intro h hb hbr
      unfold getFieldDefaultValue
      rw [if_neg (by omega), if_neg (by rw [hb]; decide), if_pos hb, if_pos hbr]
    · intro h hb hbr
      unfold getFieldDefaultValue
      rw [if_neg (by omega), if_neg (by rw [hb]; decide), if_pos hb, if_neg hbr]
    · intro h hb
      simp only [List.mem_cons, not_or, List.not_mem_nil] at hb
      obtain ⟨hb1, hb2, hb3, -⟩ := hb
      unfold getFieldDefaultValue
      rw [if_neg (by omega), if_neg (by rintro (hh | hh); exacts [hb1 hh, hb2 hh]),
        if_neg hb3]

/-- C9 witness: an empty buffer defaults a `uint8_t` field to 0. -/
theorem c9_witness :
    (objGet (decodePayload [] [exFieldU8]) exFieldU8.name).isSome = true
    ∧ objGet (decodePayload [] [exFieldU8]) exFieldU8.name
        = some (getFieldDefaultValue exFieldU8) :=
  ⟨(c9_decode_defaults [] [exFieldU8]).1 exFieldU8 (List.mem_cons_self _ _),
    (c9_decode_defaults [] [exFieldU8]).2.1 [] exFieldU8 [] (by decide) (by decide)
      (by intro g hg; cases hg)⟩

/-! ## Frame-level lemmas shared by the round-trip and streaming claims -/

/-- Parsing a byte buffer that starts with a complete, unsigned v2
frame: the frame is returned with `bytesConsumed = 12 + L`, the CRC
validated over bytes 1 through the last payload byte.  `hsig` rules
out signature consumption (clear flag bit, or fewer than 13 trailing
bytes). -/
theorem parseFrame_v2_complete (L ic cf sq si ci m0 m1 m2 c0 c1 : Nat)
    (payload rest : List Nat) (table : List (Nat × Nat))
    (hL : payload.length = L)
    (hsig : ic &&& 1 = 0 ∨ rest.length < 13) :
    parseFrame ([0xfd, L, ic, cf, sq, si, ci, m0, m1, m2] ++ (payload ++ c0 :: c1 :: rest))
        table
      = { frame := some
            { magic := 0xfd
              length := L
              incompatible_flags := some ic
              compatible_flags := some cf
              sequence := sq
              system_id := si
              component_id := ci
              message_id := m0 ||| (m1 <<< 8) ||| (m2 <<< 16)
              payload := payload
              checksum := c0 ||| (c1 <<< 8)
              signature := none
              crc_ok := some (MAVLinkCRC.validateWithTable
                ([L, ic, cf, sq, si, ci, m0, m1, m2] ++ payload)
                (m0 ||| (m1 <<< 8) ||| (m2 <<< 16)) (c0 ||| (c1 <<< 8)) table)
              protocol_version := some 2 }
          bytesConsumed := 12 + L } := by
  have hlen : ([0xfd, L, ic, cf, sq, si, ci, m0, m1, m2]
      ++ (payload ++ c0 :: c1 :: rest)).length = 12 + L + rest.length := by
    simp [hL]
    omega
  unfold parseFrame
  rw [hlen]
  simp only [List.cons_append, List.nil_append, List.findIdx_cons, List.getD_cons_zero,
    List.getD_cons_succ]
  norm_num
  rw [if_neg (by omega), if_neg (by omega), if_neg (by omega)]
  have hid : (if 2 ≤ 12 + L + rest.length - 8 then (m0 ||| m1 <<< 8 ||| m2 <<< 16, 10)
      else (m0, 8)) = (m0 ||| m1 <<< 8 ||| m2 <<< 16, 10) := if_pos (by omega)
  rw [hid]
  simp only
  rw [if_neg (by omega)]
  have hsig' : ¬(ic % 2 = 1 ∧ 13 ≤ 12 + L + rest.length - (10 + L + 2)) := by
    rcases hsig with h | h
    · rw [Nat.and_one_is_mod] at h
      omega
    · omega
  rw [if_neg hsig', if_neg hsig']
  have hdrop : List.drop 10
      (253 :: L :: ic :: cf :: sq :: si :: ci :: m0 :: m1 :: m2 :: (payload ++ c0 :: c1 :: rest))
      = payload ++ c0 :: c1 :: rest := rfl
  have hck0 : (253 :: L :: ic :: cf :: sq :: si :: ci :: m0 :: m1 :: m2 ::
      (payload ++ c0 :: c1 :: rest))[10 + L]?.getD 0 = c0 := by
    show (([253, L, ic, cf, sq, si, ci, m0, m1, m2] : List Nat)
      ++ (payload ++ c0 :: c1 :: rest))[10 + L]?.getD 0 = c0
    rw [List.getElem?_append_right (by simp)]
    simp only [List.length_cons, List.length_nil]
    rw [show 10 + L - (0 + 1 + 1 + 1 + 1 + 1 + 1 + 1 + 1 + 1 + 1) = L from by omega, ← hL,
      List.getElem?_append_right (Nat.le_refl _)]
    simp
  have hck1 : (L :: ic :: cf :: sq :: si :: ci :: m0 :: m1 :: m2 ::
      (payload ++ c0 :: c1 :: rest))[10 + L]?.getD 0 = c1 := by
    show (([L, ic, cf, sq, si, ci, m0, m1, m2] : List Nat)
      ++ (payload ++ c0 :: c1 :: rest))[10 + L]?.getD 0 = c1
    rw [List.getElem?_append_right (by simp; omega)]
    simp only [List.length_cons, List.length_nil]
    rw [show 10 + L - (0 + 1 + 1 + 1 + 1 + 1 + 1 + 1 + 1 + 1) = L + 1 from by omega, ← hL,
      List.getElem?_append_right (by omega)]
    simp
  have htake : (List.take (10 + L + 2 - 2)
      (253 :: L :: ic :: cf :: sq :: si :: ci :: m0 :: m1 :: m2 ::
        (payload ++ c0 :: c1 :: rest))).tail
      = L :: ic :: cf :: sq :: si :: ci :: m0 :: m1 :: m2 :: payload := by
    have h10 : (10 : Nat) + L + 2 - 2
        = ([253, L, ic, cf, sq, si, ci, m0, m1, m2] : List Nat).length + L := by
      simp
    show (List.take (10 + L + 2 - 2) (([253, L, ic, cf, sq, si, ci, m0, m1, m2] : List Nat)
      ++ (payload ++ c0 :: c1 :: rest))).tail = _
    rw [h10, List.take_append, ← hL, List.take_left]
    rfl
  rw [hdrop, ← hL, List.take_left, hL, hck0, hck1, htake]
  norm_num
  omega

/-- Parsing a byte buffer that starts with a complete v1 frame: the
frame is returned with `bytesConsumed = 8 + L` and the CRC validated
over bytes 1 through the last payload byte. -/
theorem parseFrame_v1_complete (L sq si ci mid c0 c1 : Nat)
    (payload rest : List Nat) (table : List (Nat × Nat))
    (hL : payload.length = L) :
    parseFrame ([0xfe, L, sq, si, ci, mid] ++ (payload ++ c0 :: c1 :: rest)) table
      = { frame := some
            { magic := 0xfe
              length := L
              incompatible_flags := none
              compatible_flags := none
              sequence := sq
              system_id := si
              component_id := ci
              message_id := mid
              payload := payload
              checksum := c0 ||| (c1 <<< 8)
              signature := none
              crc_ok := some (MAVLinkCRC.validateWithTable
                ([L, sq, si, ci, mid] ++ payload)
                mid (c0 ||| (c1 <<< 8)) table)
              protocol_version := some 1 }
          bytesConsumed := 8 + L } := by
  have hlen : ([0xfe, L, sq, si, ci, mid]
      ++ (payload ++ c0 :: c1 :: rest)).length = 8 + L + rest.length := by
    simp [hL]
    omega
  unfold parseFrame
  rw [hlen]
  simp only [List.cons_append, List.nil_append, List.findIdx_cons, List.getD_cons_zero,
    List.getD_cons_succ]
  norm_num
  rw [if_neg (by omega), if_neg (by omega), if_neg (by omega), if_neg (by omega)]
  have hck0 : (254 :: L :: sq :: si :: ci :: mid ::
      (payload ++ c0 :: c1 :: rest))[6 + L]?.getD 0 = c0 := by
    show (([254, L, sq, si, ci, mid] : List Nat)
      ++ (payload ++ c0 :: c1 :: rest))[6 + L]?.getD 0 = c0
    rw [List.getElem?_append_right (by simp)]
    simp only [List.length_cons, List.length_nil]
    rw [show 6 + L - (0 + 1 + 1 + 1 + 1 + 1 + 1) = L from by omega, ← hL,
      List.getElem?_append_right (Nat.le_refl _)]
    simp
  have hck1 : (L :: sq :: si :: ci :: mid ::
      (payload ++ c0 :: c1 :: rest))[6 + L]?.getD 0 = c1 := by
    show (([L, sq, si, ci, mid] : List Nat)
      ++ (payload ++ c0 :: c1 :: rest))[6 + L]?.getD 0 = c1
    rw [List.getElem?_append_right (by simp; omega)]
    simp only [List.length_cons, List.length_nil]
    rw [show 6 + L - (0 + 1 + 1 + 1 + 1 + 1) = L + 1 from by omega, ← hL,
      List.getElem?_append_right (by omega)]
    simp
  have htake : (List.take (6 + L)
      (254 :: L :: sq :: si :: ci :: mid ::
        (payload ++ c0 :: c1 :: rest))).tail
      = L :: sq :: si :: ci :: mid :: payload := by
    have h6 : (6 : Nat) + L
        = ([254, L, sq, si, ci, mid] : List Nat).length + L := by
      simp
    show (List.take (6 + L) (([254, L, sq, si, ci, mid] : List Nat)
      ++ (payload ++ c0 :: c1 :: rest))).tail = _
    rw [h6, List.take_append, ← hL, List.take_left]
    rfl
  rw [← hL, List.take_left, hL, hck0, hck1, htake]
  norm_num
  omega

/-- A proper prefix of a v2 frame parses to no frame with zero bytes
consumed: the caller keeps the magic byte and waits for more data. -/
theorem parseFrame_take_v2 (L ic cf sq si ci m0 m1 m2 c0 c1 : Nat)
    (payload : List Nat) (table : List (Nat × Nat)) (k : Nat)
    (hL : payload.length = L) (hk : k < 12 + L) :
    parseFrame (([0xfd, L, ic, cf, sq, si, ci, m0, m1, m2]
      ++ (payload ++ [c0, c1])).take k) table
      = { frame := none, bytesConsumed := 0 } := by
  simp only [List.cons_append, List.nil_append]
  by_cases h8 : k < 8
  · unfold parseFrame
    rw [if_pos (by simp [List.length_take]; omega)]
  · by_cases h12 : k < 12
    · obtain ⟨j, rfl⟩ : ∃ j, k = j + 1 := ⟨k - 1, by omega⟩
      rw [List.take_succ_cons]
      have hXlen : (List.take j (L :: ic :: cf :: sq :: si :: ci :: m0 :: m1 :: m2 ::
          (payload ++ [c0, c1]))).length = j := by
        simp [List.length_take, hL]
        omega
      generalize hX : List.take j (L :: ic :: cf :: sq :: si :: ci :: m0 :: m1 :: m2 ::
        (payload ++ [c0, c1])) = X at hXlen ⊢
      unfold parseFrame
      norm_num [hXlen, List.findIdx_cons, List.getElem?_cons_zero, List.getElem?_cons_succ]
      intro h1 h2 h3
      exfalso
      omega
    · obtain ⟨j, rfl⟩ : ∃ j, k = j + 12 := ⟨k - 12, by omega⟩
      rw [show j + 12 = (j + 11) + 1 from by omega, List.take_succ_cons,
        show j + 11 = (j + 10) + 1 from by omega, List.take_succ_cons,
        show j + 10 = (j + 9) + 1 from by omega, List.take_succ_cons,
        show j + 9 = (j + 8) + 1 from by omega, List.take_succ_cons,
        show j + 8 = (j + 7) + 1 from by omega, List.take_succ_cons,
        show j + 7 = (j + 6) + 1 from by omega, List.take_succ_cons,
        show j + 6 = (j + 5) + 1 from by omega, List.take_succ_cons,
        show j + 5 = (j + 4) + 1 from by omega, List.take_succ_cons,
        show j + 4 = (j + 3) + 1 from by omega, List.take_succ_cons,
        show j + 3 = (j + 2) + 1 from by omega, List.take_succ_cons]
      have hXlen : (List.take (j + 2) (payload ++ [c0, c1])).length = j + 2 := by
        simp [List.length_take, hL]
        omega
      generalize hX : List.take (j + 2) (payload ++ [c0, c1]) = X at hXlen ⊢
      unfold parseFrame
      norm_num [hXlen, List.findIdx_cons, List.getElem?_cons_zero, List.getElem?_cons_succ,
        show 2 ≤ j + 2 + 1 + 1 + 1 + 1 + 1 + 1 + 1 + 1 + 1 + 1 - 8 from by omega,
        show ∀ z : Nat, (2:Nat) ≤ j + 12 - 8 + z from by omega]
      intro h1
      exfalso
      omega

/-- A proper prefix of a v1 frame parses to no frame with zero bytes
consumed. -/
theorem parseFrame_take_v1 (L sq si ci mid c0 c1 : Nat)
    (payload : List Nat) (table : List (Nat × Nat)) (k : Nat)
    (hL : payload.length = L) (hk : k < 8 + L) :
    parseFrame (([0xfe, L, sq, si, ci, mid] ++ (payload ++ [c0, c1])).take k) table
      = { frame := none, bytesConsumed := 0 } := by
  simp only [List.cons_append, List.nil_append]
  by_cases h8 : k < 8
  · unfold parseFrame
    rw [if_pos (by simp [List.length_take]; omega)]
  · obtain ⟨j, rfl⟩ : ∃ j, k = j + 6 := ⟨k - 6, by omega⟩
    rw [show j + 6 = (j + 5) + 1 from by omega, List.take_succ_cons,
      show j + 5 = (j + 4) + 1 from by omega, List.take_succ_cons,
      show j + 4 = (j + 3) + 1 from by omega, List.take_succ_cons,
      show j + 3 = (j + 2) + 1 from by omega, List.take_succ_cons,
      show j + 2 = (j + 1) + 1 from by omega, List.take_succ_cons,
      List.take_succ_cons]
    have hXlen : (List.take j (payload ++ [c0, c1])).length = j := by
      simp [List.length_take, hL]
      omega
    generalize hX : List.take j (payload ++ [c0, c1]) = X at hXlen ⊢
    unfold parseFrame
    norm_num [hXlen, List.findIdx_cons, List.getElem?_cons_zero, List.getElem?_cons_succ]
    omega

/-- Parsing a byte buffer that starts with a complete v2 frame whose
signature bit is set and that carries at least 13 bytes after the
checksum: the 13 bytes are returned as the signature and consumed, and
the CRC input runs through the checksum bytes and the first 11
signature bytes (the coverage C5 documents). -/
theorem parseFrame_v2_signed_complete (L ic cf sq si ci m0 m1 m2 c0 c1 : Nat)
    (payload sig rest : List Nat) (table : List (Nat × Nat))
    (hL : payload.length = L) (hflag : ic &&& 1 ≠ 0) (hsig : sig.length = 13) :
    parseFrame ([0xfd, L, ic, cf, sq, si, ci, m0, m1, m2]
        ++ (payload ++ c0 :: c1 :: (sig ++ rest))) table
      = { frame := some
            { magic := 0xfd
              length := L
              incompatible_flags := some ic
              compatible_flags := some cf
              sequence := sq
              system_id := si
              component_id := ci
              message_id := m0 ||| (m1 <<< 8) ||| (m2 <<< 16)
              payload := payload
              checksum := c0 ||| (c1 <<< 8)
              signature := some sig
              crc_ok := some (MAVLinkCRC.validateWithTable
                ([L, ic, cf, sq, si, ci, m0, m1, m2] ++ (payload ++ c0 :: c1 :: sig.take 11))
                (m0 ||| (m1 <<< 8) ||| (m2 <<< 16)) (c0 ||| (c1 <<< 8)) table)
              protocol_version := some 2 }
          bytesConsumed := 12 + L + 13 } := by
  have hlen : ([0xfd, L, ic, cf, sq, si, ci, m0, m1, m2]
      ++ (payload ++ c0 :: c1 :: (sig ++ rest))).length = 12 + L + (13 + rest.length) := by
    simp [hL, hsig]
    omega
  unfold parseFrame
  rw [hlen]
  simp only [List.cons_append, List.nil_append, List.findIdx_cons, List.getD_cons_zero,
    List.getD_cons_succ]
  norm_num
  rw [if_neg (by omega), if_neg (by omega), if_neg (by omega)]
  have hid : (if 2 ≤ 12 + L + (13 + rest.length) - 8 then (m0 ||| m1 <<< 8 ||| m2 <<< 16, 10)
      else (m0, 8)) = (m0 ||| m1 <<< 8 ||| m2 <<< 16, 10) := if_pos (by omega)
  rw [hid]
  simp only
  rw [if_neg (by omega)]
  have hsig' : ic % 2 = 1 ∧ 13 ≤ 12 + L + (13 + rest.length) - (10 + L + 2) := by
    constructor
    · rw [Nat.and_one_is_mod] at hflag
      omega
    · omega
  rw [if_pos hsig', if_pos hsig']
  have hdrop : List.drop 10
      (253 :: L :: ic :: cf :: sq :: si :: ci :: m0 :: m1 :: m2 ::
        (payload ++ c0 :: c1 :: (sig ++ rest)))
      = payload ++ c0 :: c1 :: (sig ++ rest) := rfl
  have hck0 : (253 :: L :: ic :: cf :: sq :: si :: ci :: m0 :: m1 :: m2 ::
      (payload ++ c0 :: c1 :: (sig ++ rest)))[10 + L]?.getD 0 = c0 := by
    show (([253, L, ic, cf, sq, si, ci, m0, m1, m2] : List Nat)
      ++ (payload ++ c0 :: c1 :: (sig ++ rest)))[10 + L]?.getD 0 = c0
    rw [List.getElem?_append_right (by simp)]
    simp only [List.length_cons, List.length_nil]
    rw [show 10 + L - (0 + 1 + 1 + 1 + 1 + 1 + 1 + 1 + 1 + 1 + 1) = L from by omega, ← hL,
      List.getElem?_append_right (Nat.le_refl _)]
    simp
  have hck1 : (L :: ic :: cf :: sq :: si :: ci :: m0 :: m1 :: m2 ::
      (payload ++ c0 :: c1 :: (sig ++ rest)))[10 + L]?.getD 0 = c1 := by
    show (([L, ic, cf, sq, si, ci, m0, m1, m2] : List Nat)
      ++ (payload ++ c0 :: c1 :: (sig ++ rest)))[10 + L]?.getD 0 = c1
    rw [List.getElem?_append_right (by simp; omega)]
    simp only [List.length_cons, List.length_nil]
    rw [show 10 + L - (0 + 1 + 1 + 1 + 1 + 1 + 1 + 1 + 1 + 1) = L + 1 from by omega, ← hL,
      List.getElem?_append_right (by omega)]
    simp
  have hsigslice : List.take 13 (List.drop (10 + L)
      (ic :: cf :: sq :: si :: ci :: m0 :: m1 :: m2 ::
        (payload ++ c0 :: c1 :: (sig ++ rest)))) = sig := by
    show List.take 13 ((([ic, cf, sq, si, ci, m0, m1, m2] : List Nat)
      ++ (payload ++ c0 :: c1 :: (sig ++ rest))).drop (10 + L)) = sig
    rw [show (10 : Nat) + L
        = ([ic, cf, sq, si, ci, m0, m1, m2] : List Nat).length + (L + 2) from by simp; omega,
      List.drop_append,
      show L + 2 = payload.length + 2 from by rw [hL], List.drop_append,
      show List.drop 2 (c0 :: c1 :: (sig ++ rest)) = sig ++ rest from rfl,
      List.take_left' hsig]
  have htakeC : (List.take (10 + L + 2 + 13 - 2)
      (253 :: L :: ic :: cf :: sq :: si :: ci :: m0 :: m1 :: m2 ::
        (payload ++ c0 :: c1 :: (sig ++ rest)))).tail
      = L :: ic :: cf :: sq :: si :: ci :: m0 :: m1 :: m2 ::
        (payload ++ c0 :: c1 :: sig.take 11) := by
    show (List.take (10 + L + 2 + 13 - 2) (([253, L, ic, cf, sq, si, ci, m0, m1, m2] : List Nat)
      ++ (payload ++ c0 :: c1 :: (sig ++ rest)))).tail = _
    rw [show (10 : Nat) + L + 2 + 13 - 2
        = ([253, L, ic, cf, sq, si, ci, m0, m1, m2] : List Nat).length + (L + 13) from by
        simp; omega,
      List.take_append,
      show L + 13 = payload.length + 13 from by rw [hL], List.take_append,
      show (13 : Nat) = 12 + 1 from rfl, List.take_succ_cons,
      show (12 : Nat) = 11 + 1 from rfl, List.take_succ_cons,
      List.take_append_of_le_length (by rw [hsig]; omega)]
    rfl
  rw [hdrop, ← hL, List.take_left, hL, hck0, hck1, hsigslice, htakeC]
  norm_num
  omega

/-! ## C6: signature short-read -/

/-- C6 (amended): for every complete v2 frame whose incompat_flags has
bit 0 set: when 13 bytes are available after the checksum they are
copied as the 13-byte signature and consumed; when fewer than 13 bytes
remain, `parseFrame` does not treat the frame as incomplete — it emits
the frame without a signature and consumes exactly the
`header + len + 2` frame bytes. -/
theorem c6_signature_short_read (L ic cf sq si ci m0 m1 m2 c0 c1 : Nat)
    (payload shortRest sig longRest : List Nat) (table : List (Nat × Nat))
    (hL : payload.length = L) (hflag : ic &&& 1 ≠ 0)
    (hshort : shortRest.length < 13) (hsig : sig.length = 13) :
    (∃ fr, parseFrame ([0xfd, L, ic, cf, sq, si, ci, m0, m1, m2]
        ++ (payload ++ c0 :: c1 :: shortRest)) table
        = { frame := some fr, bytesConsumed := 12 + L }
      ∧ fr.signature = none ∧ fr.incompatible_flags = some ic)
    ∧ (∃ fr, parseFrame ([0xfd, L, ic, cf, sq, si, ci, m0, m1, m2]
        ++ (payload ++ c0 :: c1 :: (sig ++ longRest))) table
        = { frame := some fr, bytesConsumed := 12 + L + 13 }
      ∧ fr.signature = some sig ∧ fr.incompatible_flags = some ic) :=
  ⟨⟨_, parseFrame_v2_complete L ic cf sq si ci m0 m1 m2 c0 c1 payload shortRest table hL
      (Or.inr hshort), rfl, rfl⟩,
    ⟨_, parseFrame_v2_signed_complete L ic cf sq si ci m0 m1 m2 c0 c1 payload sig longRest
      table hL hflag hsig, rfl, rfl⟩⟩

/-- C6 witness: a concrete 12-byte signed-flag frame with no trailing
bytes is emitted whole without a signature; the same frame followed by
13 trailing bytes has them returned as its signature and consumed. -/
theorem c6_witness :
    (∃ fr, parseFrame ([0xfd, 0, 1, 0, 0, 0, 0, 7, 0, 0]
        ++ (([] : List Nat) ++ 5 :: 6 :: ([] : List Nat))) [(7, 99)]
        = { frame := some fr, bytesConsumed := 12 + 0 }
      ∧ fr.signature = none ∧ fr.incompatible_flags = some 1)
    ∧ (∃ fr, parseFrame ([0xfd, 0, 1, 0, 0, 0, 0, 7, 0, 0]
        ++ (([] : List Nat) ++ 5 :: 6 :: (List.replicate 13 9 ++ ([] : List Nat)))) [(7, 99)]
        = { frame := some fr, bytesConsumed := 12 + 0 + 13 }
      ∧ fr.signature = some (List.replicate 13 9) ∧ fr.incompatible_flags = some 1) :=
  c6_signature_short_read 0 1 0 0 0 0 7 0 0 5 6 [] [] (List.replicate 13 9) []
    [(7, 99)] rfl (by decide) (by decide) (by decide)

/-! ## Byte-level round trips for the C1 development -/

/-- `natToLE` always yields `size` bytes. -/
theorem natToLE_length (size v : Nat) : (natToLE size v).length = size := by
  simp [natToLE]

/-- Peel one byte off a little-endian expansion. -/
theorem natToLE_succ (s v : Nat) :
    natToLE (s + 1) v = v % 256 :: natToLE s (v / 256) := by
  unfold natToLE
  rw [List.range_succ_eq_map, List.map_cons, List.map_map]
  refine congrArg₂ _ (by norm_num) (List.map_congr_left fun i _ => ?_)
  show v / 256 ^ (i + 1) % 256 = v / 256 / 256 ^ i % 256
  rw [Nat.div_div_eq_div_mul, ← pow_succ']

/-- Little-endian expansion followed by recomposition is the identity
below `256 ^ size`. -/
theorem leBytesToNat_natToLE (s v : Nat) (h : v < 256 ^ s) :
    leBytesToNat (natToLE s v) = v := by
  induction s generalizing v with
  | zero =>
    have hv : v = 0 := by simpa using h
    subst hv
    rfl
  | succ s ih =>
    rw [natToLE_succ]
    have hdiv : v / 256 < 256 ^ s := by
      rw [Nat.div_lt_iff_lt_mul (by norm_num)]
      calc v < 256 ^ (s + 1) := h
        _ = 256 ^ s * 256 := by rw [pow_succ]
    show v % 256 + 256 * leBytesToNat (natToLE s (v / 256)) = v
    rw [ih (v / 256) hdiv]
    omega

/-- Reading `size` bytes at the seam of an append recovers exactly the
middle chunk. -/
theorem readLE_at (pre bs post : List Nat) (size : Nat) (h : bs.length = size) :
    readLE (pre ++ (bs ++ post)) pre.length size = some (leBytesToNat bs) := by
  unfold readLE
  rw [if_pos (by simp; omega), List.drop_left, ← h, List.take_left]

/-- The wire reduction is the identity on an in-range nonnegative value. -/
theorem toWire_nonneg_eq (bits : Nat) (n : Int) (h0 : 0 ≤ n) (h1 : n < 2 ^ bits) :
    ((toWire bits n : Nat) : Int) = n := by
  unfold toWire
  rw [Int.emod_eq_of_lt h0 h1]
  exact Int.toNat_of_nonneg h0

/-- The wire reduction lands below `2 ^ bits`. -/
theorem toWire_lt (bits : Nat) (n : Int) : toWire bits n < 2 ^ bits := by
  unfold toWire
  have h2 : (0 : Int) < 2 ^ bits := by positivity
  have h3 := Int.emod_lt_of_pos n h2
  have h4 : ((2 : Int) ^ bits) = ((2 ^ bits : Nat) : Int) := by push_cast; ring
  omega

/-- Signed reinterpretation inverts the wire reduction on the
two's-complement range. -/
theorem asSigned_toWire (bits : Nat) (hbits : 1 ≤ bits) (n : Int)
    (h1 : -(2 ^ (bits - 1)) ≤ n) (h2 : n < 2 ^ (bits - 1)) :
    asSigned bits (toWire bits n) = n := by
  have hsplit : bits = (bits - 1) + 1 := by omega
  have hpow : (2 : Int) ^ bits = 2 * 2 ^ (bits - 1) := by
    conv_lhs => rw [hsplit]
    rw [pow_succ]
    ring
  have hcast : ((2 ^ (bits - 1) : Nat) : Int) = 2 ^ (bits - 1) := by push_cast; ring
  have hcast2 : ((2 ^ bits : Nat) : Int) = 2 ^ bits := by push_cast; ring
  have hp : (0 : Int) < 2 ^ (bits - 1) := by positivity
  unfold toWire asSigned
  rcases le_or_lt 0 n with hn | hn
  · rw [Int.emod_eq_of_lt hn (by omega)]
    rw [if_pos (by omega)]
    omega
  · have e1 : n % 2 ^ bits = (n + 2 ^ bits) % 2 ^ bits := by
      rw [show n + (2 : Int) ^ bits = n + 2 ^ bits * 1 from by ring, Int.add_mul_emod_self_left]
    rw [e1, Int.emod_eq_of_lt (by omega) (by omega)]
    rw [if_neg (by omega)]
    omega

/-- Decoding a scalar freshly encoded at the seam of an append recovers
the value and advances by the type size, for every integer / char
primitive type and conforming value. -/
theorem decodeScalar_encodeScalar (t : List Char) (v : JsVal) (pre post : List Nat)
    (ht : t ∈ intCharTypes) (hc : scalarConforms t v) :
    decodeScalarValue (pre ++ (encodeSingleValue t (some v) ++ post)) pre.length t
      = (v, getTypeSize t) := by
  have hone : ∀ x : Nat, leBytesToNat [x] = x := by
    intro x
    show x + 256 * 0 = x
    omega
  simp only [intCharTypes, List.mem_cons, List.not_mem_nil, or_false] at ht
  rcases ht with rfl | rfl | rfl | rfl | rfl | rfl | rfl | rfl | rfl
  · -- uint8_t
    cases v with
    | num n =>
      have hb : 0 ≤ n ∧ n < 2 ^ 8 := hc
      show decodeScalarValue (pre ++ ([toWire 8 n] ++ post)) pre.length _ = _
      unfold decodeScalarValue
      rw [if_pos rfl, readLE_at pre [toWire 8 n] post 1 rfl]
      show (JsVal.num (leBytesToNat [toWire 8 n]), 1) = (JsVal.num n, 1)
      rw [hone, toWire_nonneg_eq 8 n hb.1 hb.2]
    | big n => exact False.elim hc
    | str s => exact False.elim hc
    | arr l => exact False.elim hc
    | jsBool b => exact False.elim hc
    | f32 b => exact False.elim hc
    | f64 b => exact False.elim hc
  · -- int8_t
    cases v with
    | num n =>
      have hb : -2 ^ 7 ≤ n ∧ n < 2 ^ 7 := hc
      show decodeScalarValue (pre ++ ([toWire 8 n] ++ post)) pre.length _ = _
      unfold decodeScalarValue
      rw [if_neg (by decide), if_pos rfl, readLE_at pre [toWire 8 n] post 1 rfl]
      show (JsVal.num (asSigned 8 (leBytesToNat [toWire 8 n])), 1) = (JsVal.num n, 1)
      rw [hone, asSigned_toWire 8 (by norm_num) n (by have h := hb.1; norm_num at h ⊢; omega) (by have h := hb.2; norm_num at h ⊢; omega)]
    | big n => exact False.elim hc
    | str s => exact False.elim hc
    | arr l => exact False.elim hc
    | jsBool b => exact False.elim hc
    | f32 b => exact False.elim hc
    | f64 b => exact False.elim hc
  · -- uint16_t
    cases v with
    | num n =>
      have hb : 0 ≤ n ∧ n < 2 ^ 16 := hc
      show decodeScalarValue (pre ++ (natToLE 2 (toWire 16 n) ++ post)) pre.length _ = _
      unfold decodeScalarValue
      rw [if_neg (by decide), if_neg (by decide), if_pos rfl,
        readLE_at pre _ post 2 (natToLE_length 2 _)]
      show (JsVal.num (leBytesToNat (natToLE 2 (toWire 16 n))), 2) = (JsVal.num n, 2)
      rw [leBytesToNat_natToLE 2 _ (by have := toWire_lt 16 n; norm_num at this ⊢; omega),
        toWire_nonneg_eq 16 n hb.1 hb.2]
    | big n => exact False.elim hc
    | str s => exact False.elim hc
    | arr l => exact False.elim hc
    | jsBool b => exact False.elim hc
    | f32 b => exact False.elim hc
    | f64 b => exact False.elim hc
  · -- int16_t
    cases v with
    | num n =>
      have hb : -2 ^ 15 ≤ n ∧ n < 2 ^ 15 := hc
      show decodeScalarValue (pre ++ (natToLE 2 (toWire 16 n) ++ post)) pre.length _ = _
      unfold decodeScalarValue
      rw [if_neg (by decide), if_neg (by decide), if_neg (by decide), if_pos rfl,
        readLE_at pre _ post 2 (natToLE_length 2 _)]
      show (JsVal.num (asSigned 16 (leBytesToNat (natToLE 2 (toWire 16 n)))), 2)
        = (JsVal.num n, 2)
      rw [leBytesToNat_natToLE 2 _ (by have := toWire_lt 16 n; norm_num at this ⊢; omega),
        asSigned_toWire 16 (by norm_num) n (by have h := hb.1; norm_num at h ⊢; omega) (by have h := hb.2; norm_num at h ⊢; omega)]
    | big n => exact False.elim hc
    | str s => exact False.elim hc
    | arr l => exact False.elim hc
    | jsBool b => exact False.elim hc
    | f32 b => exact False.elim hc
    | f64 b => exact False.elim hc
  · -- uint32_t
    cases v with
    | num n =>
      have hb : 0 ≤ n ∧ n < 2 ^ 32 := hc
      show decodeScalarValue (pre ++ (natToLE 4 (toWire 32 n) ++ post)) pre.length _ = _
      unfold decodeScalarValue
      rw [if_neg (by decide), if_neg (by decide), if_neg (by decide), if_neg (by decide),
        if_pos rfl, readLE_at pre _ post 4 (natToLE_length 4 _)]
      show (JsVal.num (leBytesToNat (natToLE 4 (toWire 32 n))), 4) = (JsVal.num n, 4)
      rw [leBytesToNat_natToLE 4 _ (by have := toWire_lt 32 n; norm_num at this ⊢; omega),
        toWire_nonneg_eq 32 n hb.1 hb.2]
    | big n => exact False.elim hc
    | str s => exact False.elim hc
    | arr l => exact False.elim hc
    | jsBool b => exact False.elim hc
    | f32 b => exact False.elim hc
    | f64 b => exact False.elim hc
  · -- int32_t
    cases v with
    | num n =>
      have hb : -2 ^ 31 ≤ n ∧ n < 2 ^ 31 := hc
      show decodeScalarValue (pre ++ (natToLE 4 (toWire 32 n) ++ post)) pre.length _ = _
      unfold decodeScalarValue
      rw [if_neg (by decide), if_neg (by decide), if_neg (by decide), if_neg (by decide),
        if_neg (by decide), if_pos rfl, readLE_at pre _ post 4 (natToLE_length 4 _)]
      show (JsVal.num (asSigned 32 (leBytesToNat (natToLE 4 (toWire 32 n)))), 4)
        = (JsVal.num n, 4)
      rw [leBytesToNat_natToLE 4 _ (by have := toWire_lt 32 n; norm_num at this ⊢; omega),
        asSigned_toWire 32 (by norm_num) n (by have h := hb.1; norm_num at h ⊢; omega) (by have h := hb.2; norm_num at h ⊢; omega)]
    | big n => exact False.elim hc
    | str s => exact False.elim hc
    | arr l => exact False.elim hc
    | jsBool b => exact False.elim hc
    | f32 b => exact False.elim hc
    | f64 b => exact False.elim hc
  · -- uint64_t
    cases v with
    | big n =>
      have hb : 0 ≤ n ∧ n < 2 ^ 64 := hc
      show decodeScalarValue (pre ++ (natToLE 8 (toWire 64 n) ++ post)) pre.length _ = _
      unfold decodeScalarValue
      rw [if_neg (by decide), if_neg (by decide), if_neg (by decide), if_neg (by decide),
        if_neg (by decide), if_neg (by decide), if_pos rfl,
        readLE_at pre _ post 8 (natToLE_length 8 _)]
      show (JsVal.big (leBytesToNat (natToLE 8 (toWire 64 n))), 8) = (JsVal.big n, 8)
      rw [leBytesToNat_natToLE 8 _ (by have := toWire_lt 64 n; norm_num at this ⊢; omega),
        toWire_nonneg_eq 64 n hb.1 hb.2]
    | num n => exact False.elim hc
    | str s => exact False.elim hc
    | arr l => exact False.elim hc
    | jsBool b => exact False.elim hc
    | f32 b => exact False.elim hc
    | f64 b => exact False.elim hc
  · -- int64_t
    cases v with
    | big n =>
      have hb : -2 ^ 63 ≤ n ∧ n < 2 ^ 63 := hc
      show decodeScalarValue (pre ++ (natToLE 8 (toWire 64 n) ++ post)) pre.length _ = _
      unfold decodeScalarValue
      rw [if_neg (by decide), if_neg (by decide), if_neg (by decide), if_neg (by decide),
        if_neg (by decide), if_neg (by decide), if_neg (by decide), if_pos rfl,
        readLE_at pre _ post 8 (natToLE_length 8 _)]
      show (JsVal.big (asSigned 64 (leBytesToNat (natToLE 8 (toWire 64 n)))), 8)
        = (JsVal.big n, 8)
      rw [leBytesToNat_natToLE 8 _ (by have := toWire_lt 64 n; norm_num at this ⊢; omega),
        asSigned_toWire 64 (by norm_num) n (by have h := hb.1; norm_num at h ⊢; omega) (by have h := hb.2; norm_num at h ⊢; omega)]
    | num n => exact False.elim hc
    | str s => exact False.elim hc
    | arr l => exact False.elim hc
    | jsBool b => exact False.elim hc
    | f32 b => exact False.elim hc
    | f64 b => exact False.elim hc
  · -- char
    cases v with
    | str s =>
      cases s with
      | nil => exact False.elim hc
      | cons c cs =>
        cases cs with
        | cons c' cs' => exact False.elim hc
        | nil =>
          have hb : c < 2 ^ 8 := hc
          have wc : toWire 8 ((c : Nat) : Int) = c := by
            unfold toWire
            rw [Int.emod_eq_of_lt (by positivity) (by exact_mod_cast hb)]
            omega
          show decodeScalarValue (pre ++ ([toWire 8 (c : Int)] ++ post)) pre.length _ = _
          unfold decodeScalarValue
          rw [if_neg (by decide), if_neg (by decide), if_neg (by decide), if_neg (by decide),
            if_neg (by decide), if_neg (by decide), if_neg (by decide), if_neg (by decide),
            if_neg (by decide), if_neg (by decide), if_pos rfl,
            readLE_at pre [toWire 8 (c : Int)] post 1 rfl]
          show ((if leBytesToNat [toWire 8 (c : Int)] = 0 then JsVal.str [0]
            else JsVal.str [leBytesToNat [toWire 8 (c : Int)]]), 1) = (JsVal.str [c], 1)
          rw [hone, wc]
          by_cases hc0 : c = 0
          · rw [if_pos hc0, hc0]
          · rw [if_neg hc0]
    | num n => exact False.elim hc
    | big n => exact False.elim hc
    | arr l => exact False.elim hc
    | jsBool b => exact False.elim hc
    | f32 b => exact False.elim hc
    | f64 b => exact False.elim hc

/-- No integer / char primitive name contains a bracket. -/
theorem intCharTypes_no_bracket (t : List Char) (ht : t ∈ intCharTypes) :
    ¬('[' ∈ t ∧ ']' ∈ t) := by
  simp only [intCharTypes, List.mem_cons, List.not_mem_nil, or_false] at ht
  rcases ht with rfl | rfl | rfl | rfl | rfl | rfl | rfl | rfl | rfl <;> decide

/-- On a bracket-free primitive name, `decodeSingleValue` is exactly the
scalar decoder. -/
theorem decodeSingleValue_intChar (t : List Char) (buf : List Nat) (off : Nat)
    (ht : t ∈ intCharTypes) :
    decodeSingleValue buf off t = decodeScalarValue buf off t := by
  simp only [intCharTypes, List.mem_cons, List.not_mem_nil, or_false] at ht
  rcases ht with rfl | rfl | rfl | rfl | rfl | rfl | rfl | rfl | rfl <;>
    · unfold decodeSingleValue
      rw [if_neg (by decide), if_neg (by decide)]

/-- Every type has a positive size. -/
theorem getTypeSize_pos (t : List Char) : 1 ≤ getTypeSize t := by
  unfold getTypeSize
  repeat' split
  all_goals omega

/-- The encoded size of any scalar value of a primitive integer / char
type is the type size, regardless of the provided value. -/
theorem encodeSingleValue_length (t : List Char) (v : Option JsVal)
    (ht : t ∈ intCharTypes) :
    (encodeSingleValue t v).length = getTypeSize t := by
  simp only [intCharTypes, List.mem_cons, List.not_mem_nil, or_false] at ht
  rcases ht with rfl | rfl | rfl | rfl | rfl | rfl | rfl | rfl | rfl <;>
    simp [encodeSingleValue, getTypeSize, natToLE_length]

/-- `arrayLength || 1` on a positive declared length. -/
theorem jsOr1_pos (n : Nat) (h : 0 < n) : jsOr1 (some n) = n := by
  cases n with
  | zero => omega
  | succ m => rfl

/-- The element loop of array encoding always emits `size · n` bytes. -/
theorem encodeArrayItems_length (baseType : List Char) (n : Nat)
    (items : List (Option JsVal)) (hb : baseType ∈ intCharTypes) :
    (encodeArrayItems baseType n items).length = getTypeSize baseType * n := by
  unfold encodeArrayItems
  rw [List.length_flatten, List.map_map]
  rw [List.map_congr_left
    (fun i _ => show (List.length ∘ fun i =>
        encodeSingleValue baseType (items.getD i (some (getDefaultValue baseType)))) i
        = getTypeSize baseType from encodeSingleValue_length _ _ hb)]
  simp [List.map_const', Nat.mul_comm]

/-- `encodeField` on a scalar field (no declared array length). -/
theorem encodeField_scalar (f : FieldDefinition) (v : Option JsVal)
    (hn : f.arrayLength = none) :
    encodeField f v = encodeSingleValue f.type v := by
  simp only [encodeField]
  rw [hn]
  rfl

/-- `encodeField` on a char array given a string value. -/
theorem encodeField_char_str (f : FieldDefinition) (s : List Nat) (n : Nat)
    (hn : f.arrayLength = some n) (h2 : 2 ≤ n)
    (hchar : getBaseType f.type = "char".toList) :
    encodeField f (some (.str s)) = (List.range n).map (fun i => s.getD i 0 % 256) := by
  simp only [encodeField]
  rw [hn, jsOr1_pos n (by omega), if_pos ⟨rfl, by omega⟩, hchar]
  rfl

/-- `encodeField` on an array field when the value is not a string:
the elementwise encoder on the spread value. -/
theorem encodeField_not_str (f : FieldDefinition) (v : Option JsVal) (n : Nat)
    (hn : f.arrayLength = some n) (h2 : 2 ≤ n)
    (hv : ∀ s, v ≠ some (.str s)) :
    encodeField f v = encodeArrayItems (getBaseType f.type) n (jsArrayOf v) := by
  simp only [encodeField]
  rw [hn, jsOr1_pos n (by omega), if_pos ⟨rfl, by omega⟩]
  rcases v with _ | w
  · rfl
  · cases w <;> first
      | rfl
      | exact absurd rfl (hv _)

/-- `encodeField` on a non-char array field. -/
theorem encodeField_arr (f : FieldDefinition) (v : Option JsVal) (n : Nat)
    (hn : f.arrayLength = some n) (h2 : 2 ≤ n)
    (hchar : getBaseType f.type ≠ "char".toList) :
    encodeField f v = encodeArrayItems (getBaseType f.type) n (jsArrayOf v) := by
  simp only [encodeField]
  rw [hn, jsOr1_pos n (by omega), if_pos ⟨rfl, by omega⟩,
    decide_eq_false hchar]
  rcases v with _ | w
  · rfl
  · cases w <;> rfl

/-- The total size of a well-formed scalar field. -/
theorem getFieldSize_scalar (f : FieldDefinition) (hn : f.arrayLength = none)
    (ht : f.type ∈ intCharTypes) :
    getFieldSize f = getTypeSize f.type := by
  unfold getFieldSize
  rw [hn]
  rw [if_neg (by simp), if_neg (intCharTypes_no_bracket f.type ht)]

/-- The total size of a well-formed array field. -/
theorem getFieldSize_arr (f : FieldDefinition) (n : Nat) (hn : f.arrayLength = some n)
    (h2 : 2 ≤ n) :
    getFieldSize f = getTypeSize (getBaseType f.type) * n := by
  unfold getFieldSize
  rw [hn]
  rw [if_pos (by simp; omega)]
  simp

/-- A well-formed field always encodes to exactly `getFieldSize f`
bytes, whatever the provided value. -/
theorem encodeField_length (f : FieldDefinition) (v : Option JsVal) (hwf : fieldWF f) :
    (encodeField f v).length = getFieldSize f := by
  obtain ⟨hext, harr⟩ := hwf
  cases hn : f.arrayLength with
  | none =>
    rw [hn] at harr
    rw [encodeField_scalar f v hn, encodeSingleValue_length f.type v harr,
      getFieldSize_scalar f hn harr]
  | some n =>
    rw [hn] at harr
    obtain ⟨h2, hbase⟩ := harr
    rw [getFieldSize_arr f n hn h2]
    by_cases hchar : getBaseType f.type = "char".toList
    · rcases v with _ | w
      · rw [encodeField_not_str f none n hn h2 (fun s h => by exact Option.noConfusion h)]
        exact encodeArrayItems_length _ _ _ hbase
      · cases w with
        | str s =>
          rw [encodeField_char_str f s n hn h2 hchar]
          rw [List.length_map, List.length_range, hchar]
          rw [show getTypeSize "char".toList = 1 from rfl]
          omega
        | num m =>
          rw [encodeField_not_str f (some (.num m)) n hn h2 (fun s h => by simp at h)]
          exact encodeArrayItems_length _ _ _ hbase
        | big m =>
          rw [encodeField_not_str f (some (.big m)) n hn h2 (fun s h => by simp at h)]
          exact encodeArrayItems_length _ _ _ hbase
        | arr l =>
          rw [encodeField_not_str f (some (.arr l)) n hn h2 (fun s h => by simp at h)]
          exact encodeArrayItems_length _ _ _ hbase
        | jsBool b =>
          rw [encodeField_not_str f (some (.jsBool b)) n hn h2 (fun s h => by simp at h)]
          exact encodeArrayItems_length _ _ _ hbase
        | f32 b =>
          rw [encodeField_not_str f (some (.f32 b)) n hn h2 (fun s h => by simp at h)]
          exact encodeArrayItems_length _ _ _ hbase
        | f64 b =>
          rw [encodeField_not_str f (some (.f64 b)) n hn h2 (fun s h => by simp at h)]
          exact encodeArrayItems_length _ _ _ hbase
    · rw [encodeField_arr f v n hn h2 hchar]
      exact encodeArrayItems_length _ _ _ hbase

/-- `decodeField` on a well-formed scalar field. -/
theorem decodeField_scalar (buf : List Nat) (off : Nat) (f : FieldDefinition)
    (hn : f.arrayLength = none) (ht : f.type ∈ intCharTypes) :
    decodeField buf off f = decodeScalarValue buf off f.type := by
  simp only [decodeField]
  rw [hn]
  show decodeSingleValue buf off f.type = _
  exact decodeSingleValue_intChar f.type buf off ht

/-- `decodeField` on a char array field. -/
theorem decodeField_char_arr (buf : List Nat) (off : Nat) (f : FieldDefinition) (n : Nat)
    (hn : f.arrayLength = some n) (h2 : 2 ≤ n)
    (hchar : getBaseType f.type = "char".toList) :
    decodeField buf off f = (.str (charArrayRead buf off n), n) := by
  simp only [decodeField]
  rw [hn, jsOr1_pos n (by omega), if_pos ⟨rfl, by omega⟩, hchar, if_pos rfl]

/-- `decodeField` on a non-char array field. -/
theorem decodeField_arr (buf : List Nat) (off : Nat) (f : FieldDefinition) (n : Nat)
    (hn : f.arrayLength = some n) (h2 : 2 ≤ n)
    (hchar : getBaseType f.type ≠ "char".toList) :
    decodeField buf off f
      = (.arr (decodeArrayLoop buf (getBaseType f.type) off n 0).1,
         (decodeArrayLoop buf (getBaseType f.type) off n 0).2) := by
  simp only [decodeField]
  rw [hn, jsOr1_pos n (by omega), if_pos ⟨rfl, by omega⟩, if_neg hchar]

/-- The char-array encoder writes the string bytes followed by NUL
padding up to the declared length. -/
theorem range_map_getD (s : List Nat) (n : Nat) (hlen : s.length ≤ n)
    (hcodes : ∀ c ∈ s, c < 256) :
    (List.range n).map (fun i => s.getD i 0 % 256) = s ++ List.replicate (n - s.length) 0 := by
  induction s generalizing n with
  | nil =>
    simp only [List.nil_append, List.length_nil, Nat.sub_zero]
    rw [List.map_congr_left (fun i _ => show List.getD [] i 0 % 256 = 0 by simp [List.getD])]
    simp [List.map_const']
  | cons a s ih =>
    cases n with
    | zero => simp at hlen
    | succ m =>
      rw [List.range_succ_eq_map, List.map_cons, List.map_map]
      have h1 : (a :: s).getD 0 0 % 256 = a :=
        Nat.mod_eq_of_lt (hcodes a (by simp))
      rw [show ((fun i => (a :: s).getD i 0 % 256) ∘ fun i => i + 1)
          = (fun i => s.getD i 0 % 256) from funext fun i => by simp [List.getD_cons_succ]]
      rw [ih m (by simpa using hlen) (fun c hc => hcodes c (by simp [hc]))]
      simp only [h1, List.cons_append, List.length_cons]
      rw [Nat.succ_sub_succ]

/-- The NUL scan stops exactly at the padding. -/
theorem takeWhile_append_replicate_zero (s : List Nat) (k : Nat)
    (hnz : ∀ c ∈ s, c ≠ 0) :
    (s ++ List.replicate k 0).takeWhile (fun b => b ≠ 0) = s := by
  induction s with
  | nil =>
    cases k with
    | zero => rfl
    | succ m => simp [List.replicate_succ, List.takeWhile_cons]
  | cons a s ih =>
    have ha : a ≠ 0 := hnz a (by simp)
    rw [List.cons_append, List.takeWhile_cons, if_pos (by simpa using ha),
      ih (fun c hc => hnz c (by simp [hc]))]

/-- Round trip of a char array field: the stored string comes back. -/
theorem decodeField_encodeField_char (f : FieldDefinition) (s : List Nat) (n : Nat)
    (pre post : List Nat)
    (hn : f.arrayLength = some n) (h2 : 2 ≤ n)
    (hchar : getBaseType f.type = "char".toList)
    (hlen : s.length ≤ n) (hcodes : ∀ c ∈ s, 0 < c ∧ c < 2 ^ 8) :
    decodeField (pre ++ (encodeField f (some (.str s)) ++ post)) pre.length f
      = (.str s, getFieldSize f) := by
  rw [encodeField_char_str f s n hn h2 hchar,
    decodeField_char_arr _ _ f n hn h2 hchar]
  have henc := range_map_getD s n hlen (fun c hc => (hcodes c hc).2)
  have hlen2 : ((List.range n).map (fun i => s.getD i 0 % 256)).length = n := by
    simp
  unfold charArrayRead
  rw [List.drop_left, List.take_left' hlen2, henc,
    takeWhile_append_replicate_zero s _ (fun c hc => Nat.pos_iff_ne_zero.mp (hcodes c hc).1),
    getFieldSize_arr f n hn h2, hchar]
  rw [show getTypeSize "char".toList = 1 from rfl]
  rw [Nat.one_mul]

/-- The element decode loop over back-to-back encoded conforming
elements recovers the element list and advances by the exact byte
count. -/
theorem decodeArrayLoop_encoded (baseType : List Char) (hb : baseType ∈ intCharTypes) :
    ∀ (vs : List JsVal) (pre post : List Nat) (off total : Nat),
      off + total = pre.length →
      (∀ x ∈ vs, scalarConforms baseType x) →
      decodeArrayLoop
          (pre ++ ((vs.map (fun x => encodeSingleValue baseType (some x))).flatten ++ post))
          baseType off vs.length total
        = (vs, total + vs.length * getTypeSize baseType) := by
  intro vs
  induction vs with
  | nil =>
    intro pre post off total hoff hconf
    simp [decodeArrayLoop]
  | cons x vs ih =>
    intro pre post off total hoff hconf
    rw [List.map_cons, List.flatten_cons, List.append_assoc]
    have hebound : 1 ≤ (encodeSingleValue baseType (some x)).length := by
      rw [encodeSingleValue_length _ _ hb]
      exact getTypeSize_pos baseType
    show decodeArrayLoop _ baseType off (vs.length + 1) total = _
    simp only [decodeArrayLoop]
    rw [if_neg (by simp; omega), hoff,
      decodeScalar_encodeScalar baseType x pre _ hb (hconf x (by simp))]
    have hpre' : off + (total + getTypeSize baseType)
        = (pre ++ encodeSingleValue baseType (some x)).length := by
      simp [encodeSingleValue_length _ _ hb]
      omega
    have hbuf : pre ++ (encodeSingleValue baseType (some x)
          ++ ((vs.map (fun x => encodeSingleValue baseType (some x))).flatten ++ post))
        = (pre ++ encodeSingleValue baseType (some x))
          ++ ((vs.map (fun x => encodeSingleValue baseType (some x))).flatten ++ post) := by
      rw [List.append_assoc]
    rw [hbuf, ih (pre ++ encodeSingleValue baseType (some x)) post off
      (total + getTypeSize baseType) hpre' (fun y hy => hconf y (by simp [hy]))]
    refine congrArg _ ?_
    rw [List.length_cons]
    ring

/-- Spreading a provided array through `jsArrayOf` and the per-slot
default lookup encodes exactly the elementwise encodings. -/
theorem encodeArrayItems_map_some (baseType : List Char) (vs : List JsVal) :
    encodeArrayItems baseType vs.length (vs.map some)
      = (vs.map (fun x => encodeSingleValue baseType (some x))).flatten := by
  unfold encodeArrayItems
  refine congrArg _ ?_
  induction vs with
  | nil => rfl
  | cons x vs ih =>
    rw [List.length_cons, List.range_succ_eq_map, List.map_cons, List.map_cons, List.map_map]
    refine congrArg₂ _ rfl ?_
    rw [← ih]
    exact List.map_congr_left fun i _ => by simp [List.getD_cons_succ]

/-- Round trip of one well-formed field at the seam of an append:
decoding what `encodeField` wrote recovers the conforming value and
advances by the field size. -/
theorem decodeField_encodeField (f : FieldDefinition) (v : JsVal) (pre post : List Nat)
    (hwf : fieldWF f) (hc : fieldValueConforms f v) :
    decodeField (pre ++ (encodeField f (some v) ++ post)) pre.length f
      = (v, getFieldSize f) := by
  obtain ⟨hext, harr⟩ := hwf
  cases hn : f.arrayLength with
  | none =>
    rw [hn] at harr
    have hc' : scalarConforms f.type v := by
      have := hc
      unfold fieldValueConforms at this
      rw [hn] at this
      exact this
    rw [encodeField_scalar f (some v) hn, decodeField_scalar _ _ f hn harr,
      decodeScalar_encodeScalar f.type v pre post harr hc', getFieldSize_scalar f hn harr]
  | some n =>
    rw [hn] at harr
    obtain ⟨h2, hbase⟩ := harr
    have hc' := hc
    unfold fieldValueConforms at hc'
    simp only [hn] at hc'
    by_cases hchar : getBaseType f.type = "char".toList
    · rw [if_pos hchar] at hc'
      cases v with
      | str s =>
        exact decodeField_encodeField_char f s n pre post hn h2 hchar hc'.1 hc'.2
      | num m => exact False.elim hc'
      | big m => exact False.elim hc'
      | arr l => exact False.elim hc'
      | jsBool b => exact False.elim hc'
      | f32 b => exact False.elim hc'
      | f64 b => exact False.elim hc'
    · rw [if_neg hchar] at hc'
      cases v with
      | arr vs =>
        obtain ⟨hvslen, hvconf⟩ := hc'
        rw [encodeField_arr f (some (.arr vs)) n hn h2 hchar,
          decodeField_arr _ _ f n hn h2 hchar]
        have hspread : jsArrayOf (some (.arr vs)) = vs.map some := rfl
        rw [hspread, ← hvslen, encodeArrayItems_map_some (getBaseType f.type) vs]
        rw [decodeArrayLoop_encoded (getBaseType f.type) hbase vs pre post pre.length 0
          (by omega) hvconf]
        rw [getFieldSize_arr f n hn h2, ← hvslen]
        refine congrArg₂ _ rfl ?_
        rw [Nat.zero_add, Nat.mul_comm]
      | num m => exact False.elim hc'
      | big m => exact False.elim hc'
      | str s => exact False.elim hc'
      | jsBool b => exact False.elim hc'
      | f32 b => exact False.elim hc'
      | f64 b => exact False.elim hc'

/-- One field peels off the back-to-back encoding. -/
theorem encFieldsBytes_cons (message : PayloadObject) (f : FieldDefinition)
    (rest : List FieldDefinition) :
    encFieldsBytes message (f :: rest)
      = encodeField f (objGet message f.name) ++ encFieldsBytes message rest := by
  simp [encFieldsBytes]

/-- The back-to-back encoding of well-formed fields has the full
payload size. -/
theorem encFieldsBytes_length (message : PayloadObject) (l : List FieldDefinition)
    (hwf : ∀ f ∈ l, fieldWF f) :
    (encFieldsBytes message l).length = fullPayloadSizeOf l := by
  induction l with
  | nil => rfl
  | cons f rest ih =>
    rw [encFieldsBytes_cons, List.length_append,
      encodeField_length f _ (hwf f (by simp)),
      ih (fun g hg => hwf g (by simp [hg]))]
    simp [fullPayloadSizeOf]

/-- Decoding a buffer of back-to-back field encodings accumulates
exactly the encoded values. -/
theorem decodePayloadLoop_encoded (msg : PayloadObject) :
    ∀ (l : List FieldDefinition) (pre : List Nat) (acc : PayloadObject),
      (∀ f ∈ l, fieldWF f) →
      (∀ f ∈ l, ∃ v, objGet msg f.name = some v ∧ fieldValueConforms f v) →
      decodePayloadLoop (pre ++ encFieldsBytes msg l) l acc pre.length
        = l.foldl (fun a f => objSet a f.name (completedValueOf msg f)) acc := by
  intro l
  induction l with
  | nil => intro pre acc _ _; rfl
  | cons f rest ih =>
    intro pre acc hwf hval
    obtain ⟨v, hv, hcv⟩ := hval f (by simp)
    have hwff := hwf f (by simp)
    have hsize : 1 ≤ getFieldSize f := by
      obtain ⟨_, harr⟩ := hwff
      cases hn : f.arrayLength with
      | none =>
        rw [hn] at harr
        rw [getFieldSize_scalar f hn harr]
        exact getTypeSize_pos f.type
      | some n =>
        rw [hn] at harr
        rw [getFieldSize_arr f n hn harr.1]
        have := getTypeSize_pos (getBaseType f.type)
        have := harr.1
        exact Nat.one_le_iff_ne_zero.mpr (by positivity)
    have hflen : (encodeField f (objGet msg f.name)).length = getFieldSize f :=
      encodeField_length f _ hwff
    rw [encFieldsBytes_cons]
    simp only [decodePayloadLoop]
    rw [if_neg (by simp [hflen]; omega)]
    have hfv : encodeField f (objGet msg f.name) = encodeField f (some v) := by rw [hv]
    rw [hfv, decodeField_encodeField f v pre (encFieldsBytes msg rest) hwff hcv]
    have hshift : pre.length + getFieldSize f
        = (pre ++ encodeField f (some v)).length := by
      simp [encodeField_length f _ hwff]
    rw [hshift, ← List.append_assoc,
      ih (pre ++ encodeField f (some v)) (objSet acc f.name v)
        (fun g hg => hwf g (by simp [hg])) (fun g hg => hval g (by simp [hg]))]
    rw [List.foldl_cons]
    have hcval : completedValueOf msg f = v := by
      unfold completedValueOf
      rw [hv]
    rw [hcval]

/-- In-bounds `setBytes` splices the written bytes between the
untouched prefix and suffix. -/
theorem setBytes_in_bounds (buf : List Nat) (off : Nat) (bs : List Nat)
    (h : off + bs.length ≤ buf.length) :
    setBytes buf off bs = buf.take off ++ bs ++ buf.drop (off + bs.length) := by
  unfold setBytes
  rw [show bs.take (buf.length - off) = bs from List.take_of_length_le (by omega)]

/-- The writing loop over disjoint in-bounds chunks lays the encoded
fields back to back, leaving the rest of the buffer unchanged. -/
theorem encodePayloadWrite_chunks (msg : PayloadObject) :
    ∀ (l : List FieldDefinition) (buf : List Nat) (off : Nat),
      (∀ f ∈ l, (encodeField f (objGet msg f.name)).length = getFieldSize f) →
      off + fullPayloadSizeOf l ≤ buf.length →
      encodePayloadWrite msg l buf off
        = buf.take off ++ encFieldsBytes msg l ++ buf.drop (off + fullPayloadSizeOf l) := by
  intro l
  induction l with
  | nil =>
    intro buf off _ hle
    show buf = _
    rw [show encFieldsBytes msg [] = [] from rfl,
      show fullPayloadSizeOf [] = 0 from rfl, Nat.add_zero, List.append_nil,
      List.take_append_drop]
  | cons f rest ih =>
    intro buf off hlen hle
    have hfull : fullPayloadSizeOf (f :: rest) = getFieldSize f + fullPayloadSizeOf rest := by
      simp [fullPayloadSizeOf]
    have hf := hlen f (by simp)
    have hboundf : off + (encodeField f (objGet msg f.name)).length ≤ buf.length := by
      rw [hf]
      omega
    show encodePayloadWrite msg rest
        (setBytes buf off (encodeField f (objGet msg f.name)))
        (off + (encodeField f (objGet msg f.name)).length) = _
    rw [setBytes_in_bounds buf off _ hboundf]
    set bs := encodeField f (objGet msg f.name) with hbs
    have htakelen : (buf.take off).length = off := by
      simp
      omega
    have hbuflen : (buf.take off ++ bs ++ buf.drop (off + bs.length)).length = buf.length := by
      simp
      omega
    rw [ih (buf.take off ++ bs ++ buf.drop (off + bs.length)) (off + bs.length)
      (fun g hg => hlen g (by simp [hg])) (by rw [hbuflen, hf]; omega)]
    have htake : (buf.take off ++ bs ++ buf.drop (off + bs.length)).take (off + bs.length)
        = buf.take off ++ bs :=
      List.take_left' (by simp [htakelen])
    have hdrop : (buf.take off ++ bs ++ buf.drop (off + bs.length)).drop
        (off + bs.length + fullPayloadSizeOf rest)
        = buf.drop (off + bs.length + fullPayloadSizeOf rest) := by
      rw [show off + bs.length + fullPayloadSizeOf rest
          = (buf.take off ++ bs).length + fullPayloadSizeOf rest from by
          simp [htakelen],
        List.drop_append, List.drop_drop]
      simp [htakelen]
    rw [htake, hdrop, encFieldsBytes_cons, hfull, ← hbs,
      show off + bs.length + fullPayloadSizeOf rest
        = off + (getFieldSize f + fullPayloadSizeOf rest) from by rw [← hf]; omega]
    simp [List.append_assoc]

/-- The extension scan never raises the flag over extension-free
fields. -/
theorem extScan_no_ext : ∀ (l : List FieldDefinition) (c e : Nat),
    (∀ f ∈ l, f.extension = false) → (extScan l c e false).2.2 = false := by
  intro l
  induction l with
  | nil => intro c e _; rfl
  | cons f rest ih =>
    intro c e hno
    rw [extScan, if_neg (by rw [hno f (by simp)]; simp)]
    exact ih _ _ (fun g hg => hno g (by simp [hg]))

/-- On an extension-free well-formed field list, `encodePayload` writes
the sorted fields back to back with no truncation. -/
theorem encodePayload_no_ext (msg : PayloadObject) (fields : List FieldDefinition)
    (hwf : ∀ f ∈ fields, fieldWF f) :
    encodePayload msg fields = encFieldsBytes msg (sortFieldsByWireOrder fields) := by
  have hperm := sortFieldsByWireOrder_perm fields
  have hwfs : ∀ f ∈ sortFieldsByWireOrder fields, fieldWF f :=
    fun f hf => hwf f (hperm.mem_iff.mp hf)
  have hno : ∀ f ∈ sortFieldsByWireOrder fields, f.extension = false :=
    fun f hf => (hwfs f hf).1
  simp only [encodePayload]
  rw [extScan_no_ext _ 0 0 hno]
  simp only [Bool.not_false, if_pos]
  rw [encodePayloadWrite_chunks msg (sortFieldsByWireOrder fields)
    (List.replicate ((List.map getFieldSize (sortFieldsByWireOrder fields)).sum) 0) 0
    (fun f hf => encodeField_length f _ (hwfs f hf))
    (by simp [fullPayloadSizeOf])]
  rw [List.take_zero, List.nil_append, Nat.zero_add]
  rw [List.drop_eq_nil_of_le (by simp [fullPayloadSizeOf]), List.append_nil]

/-- A successful object lookup is a membership. -/
theorem objGet_mem (p : PayloadObject) (k : String) (v : JsVal)
    (h : objGet p k = some v) : (k, v) ∈ p := by
  unfold objGet at h
  cases hf : p.find? (fun q => q.1 = k) with
  | none =>
    rw [hf] at h
    exact absurd h (by simp)
  | some q =>
    rw [hf] at h
    have hq : q ∈ p := List.mem_of_find?_eq_some hf
    have hpred := List.find?_some hf
    obtain ⟨a, b⟩ := q
    simp at hpred h
    rw [← hpred, ← h]
    exact hq

/-- Values present in the payload survive default completion. -/
theorem completeWD_objGet_some : ∀ (l : List FieldDefinition) (p : PayloadObject)
    (name : String) (v : JsVal), objGet p name = some v →
    objGet (completeMessageWithDefaults p l) name = some v := by
  intro l
  induction l with
  | nil => intro p name v h; exact h
  | cons f rest ih =>
    intro p name v h
    show objGet (completeMessageWithDefaults
      (if (objGet p f.name).isNone then objSet p f.name (getFieldDefaultValue f) else p)
      rest) name = some v
    by_cases hfp : (objGet p f.name).isNone
    · rw [if_pos hfp]
      apply ih
      by_cases hname : name = f.name
      · rw [hname] at h
        rw [h] at hfp
        simp at hfp
      · rw [objGet_objSet_ne p f.name name _ hname]
        exact h
    · rw [if_neg hfp]
      exact ih _ _ _ h

/-- A field of the list missing from the payload is filled with its
default by completion. -/
theorem completeWD_objGet_missing : ∀ (l : List FieldDefinition) (p : PayloadObject)
    (f : FieldDefinition), f ∈ l → (l.map (fun g => g.name)).Nodup →
    objGet p f.name = none →
    objGet (completeMessageWithDefaults p l) f.name = some (getFieldDefaultValue f) := by
  intro l
  induction l with
  | nil =>
    intro p f hf
    exact absurd hf (by simp)
  | cons g rest ih =>
    intro p f hf hnd h
    rw [List.map_cons, List.nodup_cons] at hnd
    show objGet (completeMessageWithDefaults
      (if (objGet p g.name).isNone then objSet p g.name (getFieldDefaultValue g) else p)
      rest) f.name = _
    rcases List.mem_cons.mp hf with rfl | hf'
    · rw [if_pos (by rw [h]; rfl)]
      exact completeWD_objGet_some rest _ _ _ (objGet_objSet_self p f.name _)
    · have hne : f.name ≠ g.name := fun he =>
        hnd.1 (he ▸ List.mem_map.mpr ⟨f, hf', rfl⟩)
      by_cases hgp : (objGet p g.name).isNone
      · rw [if_pos hgp]
        exact ih _ f hf' hnd.2 (by rw [objGet_objSet_ne p g.name f.name _ hne]; exact h)
      · rw [if_neg hgp]
        exact ih _ f hf' hnd.2 h

/-- Completion creates no keys outside the field list. -/
theorem completeWD_objGet_nonmem : ∀ (l : List FieldDefinition) (p : PayloadObject)
    (name : String), (∀ f ∈ l, f.name ≠ name) →
    objGet (completeMessageWithDefaults p l) name = objGet p name := by
  intro l
  induction l with
  | nil => intro p name _; rfl
  | cons f rest ih =>
    intro p name hno
    show objGet (completeMessageWithDefaults
      (if (objGet p f.name).isNone then objSet p f.name (getFieldDefaultValue f) else p)
      rest) name = _
    by_cases hfp : (objGet p f.name).isNone
    · rw [if_pos hfp, ih _ _ (fun g hg => hno g (by simp [hg])),
        objGet_objSet_ne p f.name name _ (fun he => hno f (by simp) he.symm)]
    · rw [if_neg hfp]
      exact ih _ _ (fun g hg => hno g (by simp [hg]))

/-- Lookup through a fold of `objSet`s over distinct field names:
the first (unique) matching field provides the value. -/
theorem foldl_objSet_objGet (val : FieldDefinition → JsVal) :
    ∀ (l : List FieldDefinition) (acc : PayloadObject) (name : String),
      (l.map (fun g => g.name)).Nodup →
      objGet (l.foldl (fun a f => objSet a f.name (val f)) acc) name
        = match l.find? (fun f => f.name = name) with
          | some f => some (val f)
          | none => objGet acc name := by
  intro l
  induction l with
  | nil => intro acc name _; rfl
  | cons f rest ih =>
    intro acc name hnd
    rw [List.map_cons, List.nodup_cons] at hnd
    rw [List.foldl_cons, ih _ _ hnd.2]
    by_cases hname : f.name = name
    · rw [List.find?_cons_of_pos _ (by simp [hname])]
      have hrest : rest.find? (fun g => g.name = name) = none :=
        List.find?_eq_none.mpr (fun g hg => by
          simp
          intro he
          exact hnd.1 (by rw [hname, ← he]; exact List.mem_map.mpr ⟨g, hg, rfl⟩))
      rw [hrest, ← hname]
      exact objGet_objSet_self acc f.name (val f)
    · rw [List.find?_cons_of_neg _ (by simp [hname])]
      cases hr : rest.find? (fun g => g.name = name) with
      | some g => rfl
      | none =>
        show objGet (objSet acc f.name (val f)) name = objGet acc name
        exact objGet_objSet_ne acc f.name name _ (fun he => hname he.symm)

/-- The base type of a bracket-free type string is itself. -/
theorem getBaseType_no_bracket (t : List Char) (h : ¬('[' ∈ t ∧ ']' ∈ t)) :
    getBaseType t = t := by
  unfold getBaseType
  rw [if_neg h]

/-- The default value of a well-formed scalar field conforms to the
field. -/
theorem default_conforms (f : FieldDefinition) (hn : f.arrayLength = none)
    (ht : f.type ∈ intCharTypes) :
    fieldValueConforms f (getFieldDefaultValue f) := by
  have hnb := intCharTypes_no_bracket f.type ht
  have hbase := getBaseType_no_bracket f.type hnb
  show fieldValueConforms f (getFieldDefaultValue f)
  unfold fieldValueConforms
  simp only [hn]
  simp only [intCharTypes, List.mem_cons, List.not_mem_nil, or_false] at ht
  rcases ht with h | h | h | h | h | h | h | h | h
  · rw [show getFieldDefaultValue f = .num 0 from by
      unfold getFieldDefaultValue; rw [hn, hbase, h]; rfl, h]
    exact ⟨by norm_num, by norm_num⟩
  · rw [show getFieldDefaultValue f = .num 0 from by
      unfold getFieldDefaultValue; rw [hn, hbase, h]; rfl, h]
    exact ⟨by norm_num, by norm_num⟩
  · rw [show getFieldDefaultValue f = .num 0 from by
      unfold getFieldDefaultValue; rw [hn, hbase, h]; rfl, h]
    exact ⟨by norm_num, by norm_num⟩
  · rw [show getFieldDefaultValue f = .num 0 from by
      unfold getFieldDefaultValue; rw [hn, hbase, h]; rfl, h]
    exact ⟨by norm_num, by norm_num⟩
  · rw [show getFieldDefaultValue f = .num 0 from by
      unfold getFieldDefaultValue; rw [hn, hbase, h]; rfl, h]
    exact ⟨by norm_num, by norm_num⟩
  · rw [show getFieldDefaultValue f = .num 0 from by
      unfold getFieldDefaultValue; rw [hn, hbase, h]; rfl, h]
    exact ⟨by norm_num, by norm_num⟩
  · rw [show getFieldDefaultValue f = .big 0 from by
      unfold getFieldDefaultValue; rw [hn, hbase, h]; rfl, h]
    exact ⟨by norm_num, by norm_num⟩
  · rw [show getFieldDefaultValue f = .big 0 from by
      unfold getFieldDefaultValue; rw [hn, hbase, h]; rfl, h]
    exact ⟨by norm_num, by norm_num⟩
  · rw [show getFieldDefaultValue f = .str [0] from by
      unfold getFieldDefaultValue; rw [hn, hbase, h]; rfl, h]
    exact (by norm_num : (0 : Nat) < 2 ^ 8)

/-- After completion against a well-formed definition, every declared
field has a conforming value in the completed message object. -/
theorem msg_field_present (p : PayloadObject) (fields : List FieldDefinition)
    (hwf : ∀ f ∈ fields, fieldWF f)
    (hnd : (fields.map (fun g => g.name)).Nodup)
    (hconf : payloadConforms p fields) (f : FieldDefinition) (hf : f ∈ fields) :
    ∃ v, objGet (completeMessageWithDefaults p fields) f.name = some v
      ∧ fieldValueConforms f v := by
  cases hv : objGet p f.name with
  | some v =>
    refine ⟨v, completeWD_objGet_some _ _ _ _ hv, ?_⟩
    have hmem : (f.name, v) ∈ p := objGet_mem p f.name v hv
    obtain ⟨f', hf', hname', hcf'⟩ := hconf.2.1 (f.name, v) hmem
    have : f' = f := List.inj_on_of_nodup_map hnd hf' hf hname'
    rw [← this]
    exact hcf'
  | none =>
    have harr : f.arrayLength = none := by
      cases ha : f.arrayLength with
      | none => rfl
      | some n =>
        have := hconf.2.2 f hf (by rw [ha]; rfl)
        rw [hv] at this
        simp at this
    have ht : f.type ∈ intCharTypes := by
      have h2 := (hwf f hf).2
      rw [harr] at h2
      exact h2
    exact ⟨getFieldDefaultValue f, completeWD_objGet_missing _ _ f hf hnd hv,
      default_conforms f harr ht⟩

/-- Decoding the encoded completed payload agrees pointwise with the
wire-order completion of the original payload, on every key. -/
theorem decode_complete_agree (p : PayloadObject) (fields : List FieldDefinition)
    (hwf : ∀ f ∈ fields, fieldWF f)
    (hnd : (fields.map (fun g => g.name)).Nodup)
    (hconf : payloadConforms p fields) (name : String) :
    objGet (decodePayload
        (encodePayload (completeMessageWithDefaults p fields) fields) fields) name
      = objGet (completeMessageWithDefaults p (sortFieldsByWireOrder fields)) name := by
  have hperm : List.Perm (sortFieldsByWireOrder fields) fields :=
    sortFieldsByWireOrder_perm fields
  have hnds : ((sortFieldsByWireOrder fields).map (fun g => g.name)).Nodup :=
    ((hperm.map (fun g => g.name)).nodup_iff).mpr hnd
  have hwfs : ∀ f ∈ sortFieldsByWireOrder fields, fieldWF f :=
    fun f hf => hwf f (hperm.subset hf)
  have hvals : ∀ f ∈ sortFieldsByWireOrder fields,
      ∃ v, objGet (completeMessageWithDefaults p fields) f.name = some v
        ∧ fieldValueConforms f v :=
    fun f hf => msg_field_present p fields hwf hnd hconf f (hperm.subset hf)
  have hloop := decodePayloadLoop_encoded (completeMessageWithDefaults p fields)
    (sortFieldsByWireOrder fields) [] [] hwfs hvals
  rw [List.nil_append] at hloop
  unfold decodePayload
  rw [encodePayload_no_ext _ fields hwf]
  rw [show (([] : List Nat)).length = 0 from rfl] at hloop
  rw [hloop, foldl_objSet_objGet _ _ _ name hnds]
  cases hpn : objGet p name with
  | some v =>
    rw [completeWD_objGet_some _ _ _ _ hpn]
    have hmem : (name, v) ∈ p := objGet_mem p name v hpn
    obtain ⟨f', hf', hname', hcf'⟩ := hconf.2.1 (name, v) hmem
    have hf's : f' ∈ sortFieldsByWireOrder fields := hperm.mem_iff.mpr hf'
    cases hfind : (sortFieldsByWireOrder fields).find? (fun f => f.name = name) with
    | none =>
      exact absurd (by simpa using List.find?_eq_none.mp hfind f' hf's) (by simp [hname'])
    | some f =>
      have hfs : f ∈ sortFieldsByWireOrder fields := List.mem_of_find?_eq_some hfind
      have hfname : f.name = name := by simpa using List.find?_some hfind
      show some (completedValueOf (completeMessageWithDefaults p fields) f) = some v
      unfold completedValueOf
      rw [hfname, completeWD_objGet_some _ _ _ _ hpn]
  | none =>
    cases hfind : (sortFieldsByWireOrder fields).find? (fun f => f.name = name) with
    | none =>
      have hno : ∀ f ∈ sortFieldsByWireOrder fields, f.name ≠ name := fun f hf =>
        by simpa using List.find?_eq_none.mp hfind f hf
      rw [completeWD_objGet_nonmem _ _ _ hno, hpn]
      rfl
    | some f =>
      have hfs : f ∈ sortFieldsByWireOrder fields := List.mem_of_find?_eq_some hfind
      have hfname : f.name = name := by simpa using List.find?_some hfind
      have hpf : objGet p f.name = none := by rw [hfname]; exact hpn
      rw [show name = f.name from hfname.symm,
        completeWD_objGet_missing _ _ f hfs hnds hpf]
      show some (completedValueOf (completeMessageWithDefaults p fields) f) = _
      unfold completedValueOf
      rw [completeWD_objGet_missing fields p f (hperm.subset hfs) hnd hpf]

/-- Masking with `0xffff` lands below `2 ^ 16`. -/
theorem and_ffff_lt (x : Nat) : x &&& 65535 < 65536 := by
  have h : x &&& 65535 ≤ 65535 := Nat.and_le_right
  omega

/-- Every CRC accumulation step stays below `2 ^ 16`. -/
theorem crcStep_lt (c b : Nat) : crcStep c b < 65536 :=
  and_ffff_lt _

/-- The CRC of any data is a 16-bit value. -/
theorem calculate_lt (data : List Nat) (ce : Nat) :
    MAVLinkCRC.calculate data ce < 65536 :=
  crcStep_lt _ _

/-- Low/high byte recomposition of a 16-bit value. -/
theorem lor_bytes16 (x : Nat) (h : x < 65536) :
    x % 256 ||| ((x >>> 8) % 256) <<< 8 = x := by
  rw [Nat.shiftRight_eq_div_pow, Nat.shiftLeft_eq]
  have hd : x / 2 ^ 8 % 256 = x / 256 := by
    norm_num
    omega
  rw [hd]
  have h3 := Nat.mul_add_lt_is_or (show x % 256 < 2 ^ 8 from by omega) (x / 256)
  have hcomm : x / 256 * 2 ^ 8 = 2 ^ 8 * (x / 256) := Nat.mul_comm _ _
  rw [hcomm, Nat.lor_comm, ← h3]
  omega

/-- Byte recomposition of a 24-bit value from its three header bytes. -/
theorem lor_bytes24 (x : Nat) (h : x < 2 ^ 24) :
    x % 256 ||| ((x >>> 8) % 256) <<< 8 ||| ((x >>> 16) % 256) <<< 16 = x := by
  rw [Nat.shiftRight_eq_div_pow, Nat.shiftRight_eq_div_pow, Nat.shiftLeft_eq,
    Nat.shiftLeft_eq]
  have hd16 : x / 2 ^ 16 % 256 = x / 65536 := by
    norm_num
    omega
  have hinner : x % 256 ||| x / 2 ^ 8 % 256 * 2 ^ 8 = x % 65536 := by
    have h3 := Nat.mul_add_lt_is_or (show x % 256 < 2 ^ 8 from by omega) (x / 2 ^ 8 % 256)
    have hcomm : x / 2 ^ 8 % 256 * 2 ^ 8 = 2 ^ 8 * (x / 2 ^ 8 % 256) := Nat.mul_comm _ _
    rw [hcomm, Nat.lor_comm, ← h3]
    norm_num
    omega
  rw [hinner, hd16]
  have h4 := Nat.mul_add_lt_is_or (show x % 65536 < 2 ^ 16 from by omega) (x / 65536)
  have hcomm2 : x / 65536 * 2 ^ 16 = 2 ^ 16 * (x / 65536) := Nat.mul_comm _ _
  rw [hcomm2, Nat.lor_comm, ← h4]
  omega

/-- The byte layout of a v2 frame, associated for the frame parser. -/
theorem createFrame_v2_shape (id : Nat) (payload : List Nat) (si ci sq ce : Nat) :
    createFrame id payload si ci sq ce (some 2)
      = [0xfd, payload.length % 256, 0, 0, sq % 256, si % 256, ci % 256,
          id % 256, (id >>> 8) % 256, (id >>> 16) % 256]
        ++ (payload
          ++ [MAVLinkCRC.calculate ([payload.length % 256, 0, 0, sq % 256, si % 256,
                ci % 256, id % 256, (id >>> 8) % 256, (id >>> 16) % 256] ++ payload) ce % 256,
              (MAVLinkCRC.calculate ([payload.length % 256, 0, 0, sq % 256, si % 256,
                ci % 256, id % 256, (id >>> 8) % 256, (id >>> 16) % 256] ++ payload) ce
                >>> 8) % 256]) := by
  rw [← List.append_assoc]
  rfl

/-- The byte layout of a v1 frame (any explicit non-2 version). -/
theorem createFrame_v1_shape (id : Nat) (payload : List Nat) (si ci sq ce v : Nat)
    (hv : v ≠ 2) :
    createFrame id payload si ci sq ce (some v)
      = [0xfe, payload.length % 256, sq % 256, si % 256, ci % 256, id % 256]
        ++ (payload
          ++ [MAVLinkCRC.calculate ([payload.length % 256, sq % 256, si % 256,
                ci % 256, id % 256] ++ payload) ce % 256,
              (MAVLinkCRC.calculate ([payload.length % 256, sq % 256, si % 256,
                ci % 256, id % 256] ++ payload) ce >>> 8) % 256]) := by
  rw [← List.append_assoc]
  simp only [createFrame, Option.getD_some]
  rw [if_neg hv, if_neg hv]
  rfl

/-- Reduction of a successful `serializeMessage` to its `createFrame`
call. -/
theorem serializeMessage_ok (cat : DialectCatalog) (m : MessageInput)
    (d : MessageDefinition) (p : PayloadObject) (ce : Nat)
    (hname : getDefByName cat m.message_name = some d)
    (hpay : m.payload = some (.obj p))
    (hce : getCrcExtra cat d.id = some ce) :
    serializeMessage cat m = .ok (createFrame d.id
      (encodePayload (completeMessageWithDefaults p d.fields) d.fields)
      (m.system_id.getD 1) (m.component_id.getD 1) (m.sequence.getD 0) ce
      (some (m.protocol_version.getD (if d.id > 255 then 2 else 1)))) := by
  simp only [serializeMessage, hname, hpay, hce]

/-- Serializing a conforming message yields bytes that parse back as a
single whole frame with a valid CRC, the definition's id and the
encoded payload; every proper prefix parses to nothing. -/
theorem serialize_parse_ok (cat : DialectCatalog) (m : MessageInput)
    (d : MessageDefinition) (p : PayloadObject) (ce : Nat)
    (hname : getDefByName cat m.message_name = some d)
    (hce : getCrcExtra cat d.id = some ce)
    (hpay : m.payload = some (.obj p))
    (hwf : defWF d)
    (hver : m.protocol_version.getD (if d.id > 255 then 2 else 1) = 2 ∨ d.id ≤ 255) :
    ∃ bs fr,
      serializeMessage cat m = .ok bs
      ∧ bs.length ≤ 267
      ∧ bs ≠ []
      ∧ (∀ k, k < bs.length →
          parseFrame (bs.take k) cat.crcExtraTable = { frame := none, bytesConsumed := 0 })
      ∧ parseFrame bs cat.crcExtraTable = { frame := some fr, bytesConsumed := bs.length }
      ∧ fr.message_id = d.id
      ∧ fr.payload = encodePayload (completeMessageWithDefaults p d.fields) d.fields
      ∧ fr.crc_ok = some true := by
  obtain ⟨hfwf, hndn, hfull, hid24⟩ := hwf
  have hser := serializeMessage_ok cat m d p ce hname hpay hce
  set payloadBytes := encodePayload (completeMessageWithDefaults p d.fields) d.fields with hpb
  have hperm := sortFieldsByWireOrder_perm d.fields
  have hplen : payloadBytes.length = fullPayloadSizeOf d.fields := by
    rw [hpb, encodePayload_no_ext _ _ hfwf,
      encFieldsBytes_length _ _ (fun f hf => hfwf f (hperm.subset hf)),
      fullPayloadSizeOf_perm hperm]
  have hP : payloadBytes.length ≤ 255 := by rw [hplen]; exact hfull
  have hPmod : payloadBytes.length % 256 = payloadBytes.length := Nat.mod_eq_of_lt (by omega)
  by_cases hv2 : m.protocol_version.getD (if d.id > 255 then 2 else 1) = 2
  · rw [hv2, createFrame_v2_shape d.id payloadBytes (m.system_id.getD 1)
      (m.component_id.getD 1) (m.sequence.getD 0) ce, hPmod] at hser
    set C := MAVLinkCRC.calculate ([payloadBytes.length, 0, 0, m.sequence.getD 0 % 256,
      m.system_id.getD 1 % 256, m.component_id.getD 1 % 256, d.id % 256,
      (d.id >>> 8) % 256, (d.id >>> 16) % 256] ++ payloadBytes) ce with hC
    have hCl : C < 65536 := by rw [hC]; exact calculate_lt _ _
    have hparse := parseFrame_v2_complete payloadBytes.length 0 0 (m.sequence.getD 0 % 256)
      (m.system_id.getD 1 % 256) (m.component_id.getD 1 % 256) (d.id % 256)
      ((d.id >>> 8) % 256) ((d.id >>> 16) % 256) (C % 256) ((C >>> 8) % 256)
      payloadBytes [] cat.crcExtraTable rfl (Or.inl (by decide))
    rw [lor_bytes24 d.id hid24, lor_bytes16 C hCl] at hparse
    have hvt : MAVLinkCRC.validateWithTable ([payloadBytes.length, 0, 0,
        m.sequence.getD 0 % 256, m.system_id.getD 1 % 256, m.component_id.getD 1 % 256,
        d.id % 256, (d.id >>> 8) % 256, (d.id >>> 16) % 256] ++ payloadBytes)
        d.id C cat.crcExtraTable = true := by
      unfold MAVLinkCRC.validateWithTable
      rw [show tableGet cat.crcExtraTable d.id = some ce from hce]
      unfold MAVLinkCRC.validate
      rw [hC]
      simp
    rw [hvt] at hparse
    have hblen : (([0xfd, payloadBytes.length, 0, 0, m.sequence.getD 0 % 256,
        m.system_id.getD 1 % 256, m.component_id.getD 1 % 256, d.id % 256,
        (d.id >>> 8) % 256, (d.id >>> 16) % 256] : List Nat)
        ++ (payloadBytes ++ [C % 256, (C >>> 8) % 256])).length
        = 12 + payloadBytes.length := by
      simp
      omega
    refine ⟨_,
      { magic := 0xfd
        length := payloadBytes.length
        incompatible_flags := some 0
        compatible_flags := some 0
        sequence := m.sequence.getD 0 % 256
        system_id := m.system_id.getD 1 % 256
        component_id := m.component_id.getD 1 % 256
        message_id := d.id
        payload := payloadBytes
        checksum := C
        signature := none
        crc_ok := some true
        protocol_version := some 2 },
      hser, ?_, ?_, ?_, ?_, rfl, rfl, rfl⟩
    · rw [hblen]
      omega
    · intro h
      rw [h] at hblen
      simp only [List.length_nil] at hblen
      omega
    · intro k hk
      rw [hblen] at hk
      exact parseFrame_take_v2 payloadBytes.length 0 0 (m.sequence.getD 0 % 256)
        (m.system_id.getD 1 % 256) (m.component_id.getD 1 % 256) (d.id % 256)
        ((d.id >>> 8) % 256) ((d.id >>> 16) % 256) (C % 256) ((C >>> 8) % 256)
        payloadBytes cat.crcExtraTable k rfl hk
    · rw [hblen]
      exact hparse
  · have hle255 : d.id ≤ 255 := by
      rcases hver with h | h
      · exact absurd h hv2
      · exact h
    have hidmod : d.id % 256 = d.id := Nat.mod_eq_of_lt (by omega)
    rw [createFrame_v1_shape d.id payloadBytes (m.system_id.getD 1)
      (m.component_id.getD 1) (m.sequence.getD 0) ce _ hv2, hPmod, hidmod] at hser
    set C := MAVLinkCRC.calculate ([payloadBytes.length, m.sequence.getD 0 % 256,
      m.system_id.getD 1 % 256, m.component_id.getD 1 % 256, d.id] ++ payloadBytes) ce
      with hC
    have hCl : C < 65536 := by rw [hC]; exact calculate_lt _ _
    have hparse := parseFrame_v1_complete payloadBytes.length (m.sequence.getD 0 % 256)
      (m.system_id.getD 1 % 256) (m.component_id.getD 1 % 256) d.id
      (C % 256) ((C >>> 8) % 256) payloadBytes [] cat.crcExtraTable rfl
    rw [lor_bytes16 C hCl] at hparse
    have hvt : MAVLinkCRC.validateWithTable ([payloadBytes.length,
        m.sequence.getD 0 % 256, m.system_id.getD 1 % 256, m.component_id.getD 1 % 256,
        d.id] ++ payloadBytes) d.id C cat.crcExtraTable = true := by
      unfold MAVLinkCRC.validateWithTable
      rw [show tableGet cat.crcExtraTable d.id = some ce from hce]
      unfold MAVLinkCRC.validate
      rw [hC]
      simp
    rw [hvt] at hparse
    have hblen : (([0xfe, payloadBytes.length, m.sequence.getD 0 % 256,
        m.system_id.getD 1 % 256, m.component_id.getD 1 % 256, d.id] : List Nat)
        ++ (payloadBytes ++ [C % 256, (C >>> 8) % 256])).length
        = 8 + payloadBytes.length := by
      simp
      omega
    refine ⟨_,
      { magic := 0xfe
        length := payloadBytes.length
        incompatible_flags := none
        compatible_flags := none
        sequence := m.sequence.getD 0 % 256
        system_id := m.system_id.getD 1 % 256
        component_id := m.component_id.getD 1 % 256
        message_id := d.id
        payload := payloadBytes
        checksum := C
        signature := none
        crc_ok := some true
        protocol_version := some 1 },
      hser, ?_, ?_, ?_, ?_, rfl, rfl, rfl⟩
    · rw [hblen]
      omega
    · intro h
      rw [h] at hblen
      simp only [List.length_nil] at hblen
      omega
    · intro k hk
      rw [hblen] at hk
      exact parseFrame_take_v1 payloadBytes.length (m.sequence.getD 0 % 256)
        (m.system_id.getD 1 % 256) (m.component_id.getD 1 % 256) d.id
        (C % 256) ((C >>> 8) % 256) payloadBytes cat.crcExtraTable k rfl hk
    · rw [hblen]
      exact hparse

/-! ## C1: round trip -/

/-- C1 counterexample: for message `SY` (core `a : uint8_t`, extension
`b : uint16_t`) at v2, the value `b = 1` loses its high zero byte to
extension truncation: the frame parses back with a valid CRC, but the
decoded payload has `b = 0` while `completeMessage` keeps `b = 1`, so
decoding the serialized frame is not the completed payload. -/
theorem c1_counterexample :
    ∃ bs fr cm,
      serializeMessage catSY msgSYv2 = .ok bs
      ∧ (parseFrame bs catSY.crcExtraTable).frame = some fr
      ∧ fr.crc_ok = some true
      ∧ completeMessage catSY msgSYv2 = .ok cm
      ∧ cm.payload = some (.obj [("a", .num 1), ("b", .num 1)])
      ∧ objGet (decodeFrame catSY "sy" fr).payload "b" = some (.num 0)
      ∧ objGet [("a", JsVal.num 1), ("b", JsVal.num 1)] "b" = some (.num 1)
      ∧ JsVal.num 0 ≠ JsVal.num 1 :=
  ⟨_, _, _, rfl, rfl, rfl, rfl, rfl, rfl, rfl, by simp⟩

/-- C1 (amended): for every catalog whose lookups resolve the message
definition and its CRC_EXTRA, and every message whose payload object
conforms to a well-formed integer/char-typed definition with no
extension fields, decoding the frame parsed from
`serializeMessage(msg)` yields a payload that agrees on every key with
`completeMessage(msg).payload`, and the parsed frame has
`crc_ok = true`.  (The unamended claim is falsified by extension
truncation; float fields are outside the embedding.) -/
theorem c1_round_trip (cat : DialectCatalog) (m : MessageInput)
    (d : MessageDefinition) (p : PayloadObject) (ce : Nat) (dn : String)
    (hname : getDefByName cat m.message_name = some d)
    (hid : getDefById cat d.id = some d)
    (hce : getCrcExtra cat d.id = some ce)
    (hpay : m.payload = some (.obj p))
    (hwf : defWF d)
    (hconf : payloadConforms p d.fields)
    (hver : m.protocol_version.getD (if d.id > 255 then 2 else 1) = 2 ∨ d.id ≤ 255) :
    ∃ bs fr cm cp,
      serializeMessage cat m = .ok bs
      ∧ parseFrame bs cat.crcExtraTable = { frame := some fr, bytesConsumed := bs.length }
      ∧ fr.crc_ok = some true
      ∧ completeMessage cat m = .ok cm
      ∧ cm.payload = some (.obj cp)
      ∧ ∀ name, objGet (decodeFrame cat dn fr).payload name = objGet cp name := by
  obtain ⟨bs, fr, hser, _, _, _, hparse, hmid, hfpay, hcrc⟩ :=
    serialize_parse_ok cat m d p ce hname hce hpay hwf hver
  have hcm : completeMessage cat m = .ok { m with payload := some (.obj
      (completeMessageWithDefaults p (sortFieldsByWireOrder d.fields))) } := by
    simp only [completeMessage, hname, hpay]
    rfl
  refine ⟨bs, fr, _, _, hser, hparse, hcrc, hcm, rfl, ?_⟩
  intro name
  simp only [decodeFrame, hmid, hid]
  rw [hfpay]
  exact decode_complete_agree p d.fields hwf.1 hwf.2.1 hconf name

/-- C1 witness: the concrete `TEST` message round-trips. -/
theorem c1_witness :
    ∃ bs fr cm cp,
      serializeMessage catTEST msgTEST = .ok bs
      ∧ parseFrame bs catTEST.crcExtraTable
          = { frame := some fr, bytesConsumed := bs.length }
      ∧ fr.crc_ok = some true
      ∧ completeMessage catTEST msgTEST = .ok cm
      ∧ cm.payload = some (.obj cp)
      ∧ ∀ name, objGet (decodeFrame catTEST "test" fr).payload name = objGet cp name :=
  c1_round_trip catTEST msgTEST
    { id := 5, name := "TEST", fields := [exFieldU32, exFieldU8] }
    [("a", .num 287454020), ("x", .num 7)] 42 "test" rfl rfl rfl rfl
    ⟨by
      intro f hf
      simp only [List.mem_cons, List.not_mem_nil, or_false] at hf
      rcases hf with rfl | rfl
      · exact ⟨rfl, show "uint32_t".toList ∈ intCharTypes from by decide⟩
      · exact ⟨rfl, show "uint8_t".toList ∈ intCharTypes from by decide⟩,
      by decide, by decide, by decide⟩
    ⟨by decide,
      by
        intro q hq
        simp only [List.mem_cons, List.not_mem_nil, or_false] at hq
        rcases hq with rfl | rfl
        · exact ⟨exFieldU32, by simp, rfl, ⟨by norm_num, by norm_num⟩⟩
        · exact ⟨exFieldU8, by simp, rfl, ⟨by norm_num, by norm_num⟩⟩,
      by
        intro f hf hs
        simp only [List.mem_cons, List.not_mem_nil, or_false] at hf
        rcases hf with rfl | rfl
        · simp [exFieldU32] at hs
        · simp [exFieldU8] at hs⟩
    (Or.inr (by norm_num))

/-! ## C7: byte-level streaming -/

/-- The live contents of a mid-stream buffer are exactly the fed
prefix. -/
theorem midBuffer_contents (l : List Nat) : (midBuffer l).getContents = l := by
  unfold midBuffer StreamBuffer.getContents
  simp only [List.drop_zero]
  exact List.take_left' rfl

/-- A fresh parser state carries the empty mid-stream buffer. -/
theorem initParser_streamBuffer (cat : DialectCatalog) (dn : String) :
    (initParser cat dn).streamBuffer = midBuffer [] := rfl

/-- Appending one byte to a non-full mid-stream buffer extends the fed
prefix without growing or compacting. -/
theorem midBuffer_append (l : List Nat) (b : Nat)
    (h : l.length + 1 ≤ DEFAULT_BUFFER_SIZE) :
    (midBuffer l).append [b] = midBuffer (l ++ [b]) := by
  have hbuf : (l ++ List.replicate (DEFAULT_BUFFER_SIZE - l.length) 0).length
      = DEFAULT_BUFFER_SIZE := by simp; omega
  simp only [StreamBuffer.append, midBuffer, List.length_cons, List.length_nil, hbuf]
  rw [if_neg (by omega), if_neg (by omega)]
  simp only []
  rw [setBytes_in_bounds _ _ _ (by rw [hbuf]; simp; omega)]
  rw [List.take_left' rfl]
  rw [show l.length + ([b] : List Nat).length = l.length + 1 from rfl,
    List.drop_append 1]
  rw [List.drop_replicate]
  simp only [List.length_append, List.length_cons, List.length_nil]
  rw [show DEFAULT_BUFFER_SIZE - l.length - 1 = DEFAULT_BUFFER_SIZE - (l.length + (0 + 1)) from by omega]

/-- Feeding one byte that leaves the frame incomplete returns no
messages and retains the whole fed prefix in the stream buffer. -/
theorem parseBytes_none (cat : DialectCatalog) (dn : String) (l : List Nat) (b : Nat)
    (h : l.length + 1 ≤ DEFAULT_BUFFER_SIZE)
    (hp : parseFrame (l ++ [b]) cat.crcExtraTable = { frame := none, bytesConsumed := 0 }) :
    parseBytes { catalog := cat, dialectName := dn, streamBuffer := midBuffer l } [b]
      = ([], { catalog := cat, dialectName := dn, streamBuffer := midBuffer (l ++ [b]) }) := by
  simp only [parseBytes]
  rw [if_neg (by simp)]
  rw [midBuffer_append l b h, midBuffer_contents]
  have hloop : parseBytesLoop cat dn (l ++ [b]) ((l ++ [b]).length + 1) 0 = ([], 0) := by
    rw [show (l ++ [b]).length + 1 = (l.length + 1) + 1 from by simp]
    simp only [parseBytesLoop]
    rw [if_pos (by simp), List.drop_zero, hp]
    simp
  rw [hloop]
  have hcons : (midBuffer (l ++ [b])).consume 0 = midBuffer (l ++ [b]) := by
    unfold StreamBuffer.consume midBuffer
    simp only []
    rw [if_neg (by simp)]
  rw [hcons]

/-- Feeding the final byte of a parseable frame returns exactly the
decoded message. -/
theorem parseBytes_full (cat : DialectCatalog) (dn : String) (l : List Nat) (b : Nat)
    (fr : MAVLinkFrame)
    (h : l.length + 1 ≤ DEFAULT_BUFFER_SIZE)
    (hp : parseFrame (l ++ [b]) cat.crcExtraTable
        = { frame := some fr, bytesConsumed := (l ++ [b]).length }) :
    (parseBytes { catalog := cat, dialectName := dn, streamBuffer := midBuffer l } [b]).1
      = [decodeFrame cat dn fr] := by
  simp only [parseBytes]
  rw [if_neg (by simp)]
  rw [midBuffer_append l b h, midBuffer_contents]
  have hloop : parseBytesLoop cat dn (l ++ [b]) ((l ++ [b]).length + 1) 0
      = ([decodeFrame cat dn fr], (l ++ [b]).length) := by
    rw [show (l ++ [b]).length + 1 = (l.length + 1) + 1 from by simp]
    simp only [parseBytesLoop]
    rw [if_pos (by simp), List.drop_zero, hp]
    simp only []
    rw [if_neg (by simp)]
    simp
  rw [hloop]

/-- Feeding a parseable frame one byte at a time from any fed prefix:
every call before the last returns nothing, the last returns exactly
one decoded message. -/
theorem feedSeq_mid (cat : DialectCatalog) (dn : String) (bs : List Nat) (fr : MAVLinkFrame)
    (hlen : bs.length ≤ DEFAULT_BUFFER_SIZE)
    (hpre : ∀ k, k < bs.length →
      parseFrame (bs.take k) cat.crcExtraTable = { frame := none, bytesConsumed := 0 })
    (hfull : parseFrame bs cat.crcExtraTable
      = { frame := some fr, bytesConsumed := bs.length }) :
    ∀ (rem pre : List Nat), pre ++ rem = bs → rem ≠ [] →
      (feedSeq { catalog := cat, dialectName := dn, streamBuffer := midBuffer pre } rem).1
        = List.replicate (rem.length - 1) [] ++ [[decodeFrame cat dn fr]] := by
  intro rem
  induction rem with
  | nil =>
    intro pre _ hne
    exact absurd rfl hne
  | cons b rest ih =>
    intro pre heq _
    have hlen1 : pre.length + 1 ≤ DEFAULT_BUFFER_SIZE := by
      have hx : (pre ++ b :: rest).length = bs.length := by rw [heq]
      simp only [List.length_append, List.length_cons] at hx
      omega
    cases rest with
    | nil =>
      have hfull' : parseFrame (pre ++ [b]) cat.crcExtraTable
          = { frame := some fr, bytesConsumed := (pre ++ [b]).length } := by
        rw [show pre ++ [b] = bs from heq]
        exact hfull
      show (parseBytes { catalog := cat, dialectName := dn, streamBuffer := midBuffer pre } [b]).1 :: (feedSeq (parseBytes { catalog := cat, dialectName := dn, streamBuffer := midBuffer pre } [b]).2 []).1 = _
      rw [parseBytes_full cat dn pre b fr hlen1 hfull']
      rfl
    | cons b2 rest2 =>
      have hk : pre.length + 1 < bs.length := by
        rw [← heq]
        simp only [List.length_append, List.length_cons]
        omega
      have htake : bs.take (pre.length + 1) = pre ++ [b] := by
        rw [← heq, List.take_append]
        rfl
      have hprefix : parseFrame (pre ++ [b]) cat.crcExtraTable
          = { frame := none, bytesConsumed := 0 } := by
        rw [← htake]
        exact hpre _ hk
      show (parseBytes { catalog := cat, dialectName := dn, streamBuffer := midBuffer pre } [b]).1 :: (feedSeq (parseBytes { catalog := cat, dialectName := dn, streamBuffer := midBuffer pre } [b]).2 (b2 :: rest2)).1 = _
      rw [parseBytes_none cat dn pre b hlen1 hprefix]
      show ([] : List ParsedMAVLinkMessage) :: (feedSeq { catalog := cat, dialectName := dn, streamBuffer := midBuffer (pre ++ [b]) } (b2 :: rest2)).1 = _
      rw [ih (pre ++ [b])
        (by simp only [List.append_assoc, List.cons_append, List.nil_append]; exact heq)
        (by simp)]
      simp [List.replicate_succ]

set_option maxRecDepth 4000 in
/-- C7 counterexample: message `BIG` has a single `uint8_t[256]` array
field, so its full payload size is 256 and the v1 length byte wraps to
`256 % 256 = 0`.  Serialization succeeds (264 bytes), but the first 8
bytes already form a complete parseable sub-frame: the 8th one-byte
`parseBytes` call returns a message although 256 bytes of the
serialized frame are still to come, falsifying the unrestricted
byte-level streaming property. -/
theorem c7_counterexample :
    ∃ bs, serializeMessage catBIG msgBIG = .ok bs
      ∧ bs.length = 264
      ∧ 8 < bs.length
      ∧ bs.take 8 = [254, 0, 0, 1, 1, 1, 0, 0]
      ∧ ∃ msg, (feedSeq (initParser catBIG "big") (bs.take 8)).1
          = List.replicate 7 [] ++ [[msg]] := by
  refine ⟨_, rfl, ?_, ?_, ?_, ?_⟩
  · rfl
  · decide
  · rfl
  · have hpre : ∀ k, k < ([254, 0, 0, 1, 1, 1, 0, 0] : List Nat).length →
        parseFrame (([254, 0, 0, 1, 1, 1, 0, 0] : List Nat).take k) catBIG.crcExtraTable
          = { frame := none, bytesConsumed := 0 } := by
      intro k hk
      simp only [List.length_cons, List.length_nil] at hk
      interval_cases k <;> rfl
    obtain ⟨fr, hfull⟩ : ∃ fr, parseFrame ([254, 0, 0, 1, 1, 1, 0, 0] : List Nat)
        catBIG.crcExtraTable
        = { frame := some fr,
            bytesConsumed := ([254, 0, 0, 1, 1, 1, 0, 0] : List Nat).length } :=
      ⟨_, rfl⟩
    refine ⟨decodeFrame catBIG "big" fr, ?_⟩
    have hfeed := feedSeq_mid catBIG "big" [254, 0, 0, 1, 1, 1, 0, 0] fr (by decide) hpre
      hfull [254, 0, 0, 1, 1, 1, 0, 0] [] rfl (by simp)
    exact hfeed

/-- C7 (amended): for every message with a conforming payload object
over a well-formed integer/char-typed, extension-free definition whose
full payload size is at most 255 (so the length byte does not wrap) and
whose id fits the chosen framing, feeding the bytes of
`serializeMessage(msg)` to `parseBytes` one byte
per call returns the empty list on every call before the last byte and
exactly one parsed message on the call that supplies the last byte. -/
theorem c7_byte_streaming (cat : DialectCatalog) (m : MessageInput)
    (d : MessageDefinition) (p : PayloadObject) (ce : Nat) (dn : String)
    (hname : getDefByName cat m.message_name = some d)
    (hce : getCrcExtra cat d.id = some ce)
    (hpay : m.payload = some (.obj p))
    (hwf : defWF d)
    (hver : m.protocol_version.getD (if d.id > 255 then 2 else 1) = 2 ∨ d.id ≤ 255) :
    ∃ bs msg,
      serializeMessage cat m = .ok bs
      ∧ 1 ≤ bs.length
      ∧ (feedSeq (initParser cat dn) bs).1
          = List.replicate (bs.length - 1) [] ++ [[msg]] := by
  obtain ⟨bs, fr, hser, hle267, hne, hpre, hparse, _, _, _⟩ :=
    serialize_parse_ok cat m d p ce hname hce hpay hwf hver
  refine ⟨bs, decodeFrame cat dn fr, hser, List.length_pos.mpr hne, ?_⟩
  have hinit : initParser cat dn
      = { catalog := cat, dialectName := dn, streamBuffer := midBuffer [] } := rfl
  rw [hinit]
  exact feedSeq_mid cat dn bs fr
    (by rw [show DEFAULT_BUFFER_SIZE = 4096 from rfl]; omega)
    hpre hparse bs [] rfl hne

/-- C7 witness: the 13-byte serialized `TEST` frame fed byte by byte
produces twelve empty results and then one message. -/
theorem c7_witness :
    ∃ bs msg,
      serializeMessage catTEST msgTEST = .ok bs
      ∧ 1 ≤ bs.length
      ∧ (feedSeq (initParser catTEST "test") bs).1
          = List.replicate (bs.length - 1) [] ++ [[msg]] :=
  c7_byte_streaming catTEST msgTEST
    { id := 5, name := "TEST", fields := [exFieldU32, exFieldU8] }
    [("a", .num 287454020), ("x", .num 7)] 42 "test" rfl rfl rfl
    ⟨by
      intro f hf
      simp only [List.mem_cons, List.not_mem_nil, or_false] at hf
      rcases hf with rfl | rfl
      · exact ⟨rfl, show "uint32_t".toList ∈ intCharTypes from by decide⟩
      · exact ⟨rfl, show "uint8_t".toList ∈ intCharTypes from by decide⟩,
      by decide, by decide, by decide⟩
    (Or.inr (by norm_num))
